import Mathlib

/-!
Verification of the aurora AUR helper (Deno/TypeScript) against its
natural-language specification.

The definitions below are a shallow embedding of the repository's code:

* `src/src/main.ts` — `parsePkgData`, `urlMapping`, `sumCheckStrict`,
  `downloadAssets` (with its helper `newDl`), `fetchFile`, `fetchGit`,
  and the dependency aggregation loop of `update`.
* `src/unnamed/part_002` — `applyParamExpansion`'s pattern-strip
  operators (`%`, `%%`, `#`, `##`).

JavaScript strings are embedded as `List Char`; JavaScript numbers used
as counters are embedded as `Int`; `Map`/plain-object state is embedded
as insertion-ordered association lists; filesystem and subprocess
effects are embedded as explicit oracle values carried by each task.
-/

/-- JavaScript strings are embedded as lists of characters. -/
abbrev Str := List Char

/-- Conversion helper `String.toList` used for writing literals in statements. -/
def sOf (s : String) : Str := s.toList

/-! ## Shell parameter-expansion operators (src/unnamed/part_002, applyParamExpansion)

The `switch (parsed.operator)` in `applyParamExpansion` implements the
four pattern-strip operators over literal (non-glob) patterns:

* case "%"  — `if (parsed.pattern && value.endsWith(parsed.pattern)) value = value.slice(0, -parsed.pattern.length)`
* case "%%" — `if (parsed.pattern) { while (value.endsWith(parsed.pattern)) value = value.slice(0, -parsed.pattern.length) }`
* case "#"  — `if (parsed.pattern && value.startsWith(parsed.pattern)) value = value.slice(parsed.pattern.length)`
* case "##" — `if (parsed.pattern) { while (value.startsWith(parsed.pattern)) value = value.slice(parsed.pattern.length) }`

A JS string is truthy exactly when non-empty, and for a non-empty
pattern `value.slice(0, -pattern.length)` is `take (length value - length pattern)`
while `value.slice(pattern.length)` is `drop (length pattern)`.
-/

/-- The `%` operator: strip one trailing occurrence of the literal pattern. -/
def expSuffixShort (value pattern : Str) : Str :=
  if pattern ≠ [] ∧ pattern.isSuffixOf value then
    value.take (value.length - pattern.length)
  else value

/-- The `#` operator: strip one leading occurrence of the literal pattern. -/
def expPrefixShort (value pattern : Str) : Str :=
  if pattern ≠ [] ∧ pattern.isPrefixOf value then
    value.drop pattern.length
  else value

theorem isSuffixOf_length_le {p v : Str} (h : p.isSuffixOf v = true) :
    p.length ≤ v.length := by
  have : p <:+ v := by
    rwa [List.isSuffixOf_iff_suffix] at h
  exact this.length_le

theorem isPrefixOf_length_le {p v : Str} (h : p.isPrefixOf v = true) :
    p.length ≤ v.length := by
  have : p <+: v := by
    rwa [List.isPrefixOf_iff_prefix] at h
  exact this.length_le

/-- The `%%` operator: the `while (value.endsWith(pattern))` loop. -/
def expSuffixGreedy (value pattern : Str) : Str :=
  if h : pattern ≠ [] ∧ pattern.isSuffixOf value then
    expSuffixGreedy (value.take (value.length - pattern.length)) pattern
  else value
termination_by value.length
decreasing_by
  simp only [List.length_take]
  have hle : pattern.length ≤ value.length := isSuffixOf_length_le h.2
  have hpos : 0 < pattern.length := List.length_pos.mpr h.1
  omega

/-- The `##` operator: the `while (value.startsWith(pattern))` loop. -/
def expPrefixGreedy (value pattern : Str) : Str :=
  if h : pattern ≠ [] ∧ pattern.isPrefixOf value then
    expPrefixGreedy (value.drop pattern.length) pattern
  else value
termination_by value.length
decreasing_by
  simp only [List.length_drop]
  have hle : pattern.length ≤ value.length := isPrefixOf_length_le h.2
  have hpos : 0 < pattern.length := List.length_pos.mpr h.1
  omega

theorem expSuffixGreedy_length_le_aux :
    ∀ (n : Nat) (v p : Str), v.length ≤ n →
      (expSuffixGreedy v p).length ≤ v.length := by
  intro n
  induction n with
  | zero =>
    intro v p hv
    rw [expSuffixGreedy]
    split
    · rename_i h
      have h1 := isSuffixOf_length_le h.2
      have h2 := List.length_pos.mpr h.1
      have : False := by omega
      exact this.elim
    · exact le_refl _
  | succ n ih =>
    intro v p hv
    rw [expSuffixGreedy]
    split
    · rename_i h
      have h1 := isSuffixOf_length_le h.2
      have h2 := List.length_pos.mpr h.1
      have h3 : (v.take (v.length - p.length)).length ≤ n := by
        simp only [List.length_take]; omega
      have h4 := ih (v.take (v.length - p.length)) p h3
      have h5 : (v.take (v.length - p.length)).length ≤ v.length := by
        simp only [List.length_take]; omega
      omega
    · exact le_refl _

theorem expSuffixGreedy_length_le (value pattern : Str) :
    (expSuffixGreedy value pattern).length ≤ value.length :=
  expSuffixGreedy_length_le_aux value.length value pattern (le_refl _)

theorem expPrefixGreedy_length_le_aux :
    ∀ (n : Nat) (v p : Str), v.length ≤ n →
      (expPrefixGreedy v p).length ≤ v.length := by
  intro n
  induction n with
  | zero =>
    intro v p hv
    rw [expPrefixGreedy]
    split
    · rename_i h
      have h1 := isPrefixOf_length_le h.2
      have h2 := List.length_pos.mpr h.1
      have : False := by omega
      exact this.elim
    · exact le_refl _
  | succ n ih =>
    intro v p hv
    rw [expPrefixGreedy]
    split
    · rename_i h
      have h1 := isPrefixOf_length_le h.2
      have h2 := List.length_pos.mpr h.1
      have h3 : (v.drop p.length).length ≤ n := by
        simp only [List.length_drop]; omega
      have h4 := ih (v.drop p.length) p h3
      have h5 : (v.drop p.length).length ≤ v.length := by
        simp only [List.length_drop]; omega
      omega
    · exact le_refl _

theorem expPrefixGreedy_length_le (value pattern : Str) :
    (expPrefixGreedy value pattern).length ≤ value.length :=
  expPrefixGreedy_length_le_aux value.length value pattern (le_refl _)

theorem expSuffixGreedy_length_le_short (value pattern : Str) :
    (expSuffixGreedy value pattern).length ≤ (expSuffixShort value pattern).length := by
  rw [expSuffixGreedy, expSuffixShort]
  split
  · exact expSuffixGreedy_length_le _ _
  · exact le_refl _

theorem expPrefixGreedy_length_le_short (value pattern : Str) :
    (expPrefixGreedy value pattern).length ≤ (expPrefixShort value pattern).length := by
  rw [expPrefixGreedy, expPrefixShort]
  split
  · exact expPrefixGreedy_length_le _ _
  · exact le_refl _

/-- C7. For every variable value and literal pattern that occurs more than
once as a suffix (respectively prefix) of the value, the greedy strip operator
`%%` removes at least as many characters as the shortest-match operator `%`,
and `##` removes at least as many as `#`. Characters removed are measured as
`value.length - result.length`. -/
theorem claim_c7_greedy_strips_at_least_as_much (value pattern : Str)
    (hsuf : (pattern ++ pattern).isSuffixOf value = true)
    (hpre : (pattern ++ pattern).isPrefixOf value = true) :
    value.length - (expSuffixGreedy value pattern).length ≥
      value.length - (expSuffixShort value pattern).length ∧
    value.length - (expPrefixGreedy value pattern).length ≥
      value.length - (expPrefixShort value pattern).length := by
  constructor
  · exact Nat.sub_le_sub_left (expSuffixGreedy_length_le_short value pattern) _
  · exact Nat.sub_le_sub_left (expPrefixGreedy_length_le_short value pattern) _

/-- Witness for C7 at `value = "xxabxx"`, `pattern = "x"`: the pattern occurs
twice as a suffix and twice as a prefix. -/
theorem claim_c7_witness :
    ((sOf "x" ++ sOf "x").isSuffixOf (sOf "xxabxx") = true) ∧
    ((sOf "x" ++ sOf "x").isPrefixOf (sOf "xxabxx") = true) ∧
    ((sOf "xxabxx").length - (expSuffixGreedy (sOf "xxabxx") (sOf "x")).length ≥
      (sOf "xxabxx").length - (expSuffixShort (sOf "xxabxx") (sOf "x")).length ∧
     (sOf "xxabxx").length - (expPrefixGreedy (sOf "xxabxx") (sOf "x")).length ≥
      (sOf "xxabxx").length - (expPrefixShort (sOf "xxabxx") (sOf "x")).length) :=
  ⟨by decide, by decide,
    claim_c7_greedy_strips_at_least_as_much (sOf "xxabxx") (sOf "x")
      (by decide) (by decide)⟩

/-! ## Mirror rewriter (src/src/main.ts, urlMapping, lines 689-706)

`urlMapping(url, type)` iterates `urlMappingList` in order, skipping rules
whose `type` differs; a literal rule applies when `url.includes(i.src)` and
replaces the first occurrence of `i.src` with `i.to`; a regex rule applies
when `new RegExp(i.src).test(url)` and rewrites with `url.replace(regex, i.to)`.
The first applicable rule wins; with no applicable rule the URL is returned
unchanged.  The JS regex engine is embedded as an explicit parameter
(`RegexEngine`) since the claims do not depend on its behaviour. -/

/-- Transport kind of a source entry (`UrlX["type"]` in the source). -/
inductive UrlType where
  | http
  | git
deriving DecidableEq, Repr

/-- One entry of `urlMappingList`: `{src, type, regex?, to}` (the `to` field
is named `toUrl` here because `to` is reserved). -/
structure MirrorRule where
  src : Str
  type : UrlType
  regex : Bool
  toUrl : Str
deriving DecidableEq, Repr

/-- JavaScript `s.includes(pat)`: substring containment (leftmost scan). -/
def jsIncludes : Str → Str → Bool
  | s, pat =>
    if pat.isPrefixOf s then true
    else
      match s with
      | [] => false
      | _ :: rest => jsIncludes rest pat

/-- The behaviour of `new RegExp(src)` on a URL: `test` and first-match
`replace`.  Abstract: the claims hold for every engine. -/
structure RegexEngine where
  test : Str → Str → Bool
  replace : Str → Str → Str → Str

/-- JavaScript `s.replace(pat, rep)` for a literal `pat`: replace the
leftmost occurrence of `pat` (the empty pattern matches at position 0). -/
def replaceFirst (s pat rep : Str) : Str :=
  if pat.isPrefixOf s then rep ++ s.drop pat.length
  else
    match s with
    | [] => []
    | c :: rest => c :: replaceFirst rest pat rep

/-- The per-rule applicability test of the `urlMapping` loop body:
`(typeof x === "string" && url.includes(x)) || (x instanceof RegExp && x.test(url))`. -/
def ruleMatches (re : RegexEngine) (r : MirrorRule) (url : Str) : Bool :=
  if r.regex then re.test r.src url else jsIncludes url r.src

/-- Embedding of `urlMapping(url, type)` over an explicit rule list (the source reads the
module-level `urlMappingList`, which is configuration data). -/
def urlMapping (re : RegexEngine) : List MirrorRule → Str → UrlType → Str
  | [], url, _ => url
  | r :: rest, url, t =>
    if r.type ≠ t then urlMapping re rest url t
    else if ruleMatches re r url then
      (if r.regex then re.replace r.src url r.toUrl
       else replaceFirst url r.src r.toUrl)
    else urlMapping re rest url t

theorem urlMapping_no_match (re : RegexEngine) :
    ∀ (rules : List MirrorRule) (url : Str) (t : UrlType),
      (∀ r ∈ rules, r.type = t → ruleMatches re r url = false) →
      urlMapping re rules url t = url := by
  intro rules
  induction rules with
  | nil => intro url t _; rfl
  | cons r rest ih =>
    intro url t h
    rw [urlMapping]
    by_cases ht : r.type = t
    · have hm := h r (List.mem_cons_self r rest) ht
      simp only [ht, ne_eq, not_true_eq_false, if_false, hm, Bool.false_eq_true,
        if_false]
      exact ih url t (fun r' hr' ht' => h r' (List.mem_cons_of_mem r hr') ht')
    · simp only [ne_eq, ht, not_false_eq_true, if_true]
      exact ih url t (fun r' hr' ht' => h r' (List.mem_cons_of_mem r hr') ht')

/-- C8. For every rule set, URL and transport: a URL matching no rule of
its transport is returned unchanged, and whenever the rewritten URL matches
no rule of its transport (the claim's hypothesis that a rewritten URL never
re-matches any matcher), rewriting is idempotent:
`rewrite(rewrite(u, t), t) = rewrite(u, t)`.  Stated for every regex-engine
behaviour `re`. -/
theorem claim_c8_urlMapping_idempotent (re : RegexEngine)
    (rules : List MirrorRule) (url : Str) (t : UrlType) :
    ((∀ r ∈ rules, r.type = t → ruleMatches re r url = false) →
      urlMapping re rules url t = url) ∧
    ((∀ r ∈ rules, r.type = t →
        ruleMatches re r (urlMapping re rules url t) = false) →
      urlMapping re rules (urlMapping re rules url t) t =
        urlMapping re rules url t) :=
  ⟨urlMapping_no_match re rules url t,
   fun h => urlMapping_no_match re rules (urlMapping re rules url t) t h⟩

/-- A regex engine that never matches; the C8 witness rule set is literal-only,
so the engine is irrelevant there. -/
def reNone : RegexEngine where
  test := fun _ _ => false
  replace := fun _ u _ => u

/-- The default first mirror rule of `urlMappingList`. -/
def rawGithubRule : MirrorRule where
  src := sOf "https://raw.githubusercontent.com"
  type := UrlType.http
  regex := false
  toUrl := sOf "https://raw.gitmirror.com"

/-- Witness for C8: the raw-githubusercontent mirror rule rewrites a concrete
URL to one that matches no rule, and rewriting that result again leaves it
unchanged. -/
theorem claim_c8_witness :
    urlMapping reNone [rawGithubRule]
        (urlMapping reNone [rawGithubRule]
          (sOf "https://raw.githubusercontent.com/x/y") UrlType.http)
        UrlType.http =
      urlMapping reNone [rawGithubRule]
        (sOf "https://raw.githubusercontent.com/x/y") UrlType.http :=
  (claim_c8_urlMapping_idempotent reNone [rawGithubRule]
      (sOf "https://raw.githubusercontent.com/x/y") UrlType.http).2
    (by decide)

/-! ## Checksum verification (src/src/main.ts, sumCheckStrict, lines 708-724)

```ts
async function sumCheckStrict(path, type, sum) {
  if (sum === "SKIP") return false;
  if (sum === "") return false;
  if (!path) return false;
  try {
    const c = new Deno.Command(`${type}sum`, { args: [path], stdout: "piped" });
    const { stdout, success } = await c.output();
    if (!success) return false;
    const hash = new TextDecoder().decode(stdout).split(" ")[0];
    return hash === sum;
  } catch { return false; }
}
```

The `<type>sum` subprocess is embedded as an oracle
`out : Option (Bool × Str)`: `none` when spawning throws, otherwise
`some (success, stdout-text)`.  `split(" ")[0]` splits on single spaces and
takes the first field. -/

/-- JavaScript `s.split(sep)` for a single-character separator. -/
def splitOnChar (sep : Char) : Str → List Str
  | [] => [[]]
  | c :: rest =>
    if c = sep then [] :: splitOnChar sep rest
    else
      match splitOnChar sep rest with
      | [] => [[c]]
      | g :: gs => (c :: g) :: gs

/-- Shallow embedding of `sumCheckStrict`.  `type` selects the `<type>sum`
binary whose behaviour the oracle `out` supplies. -/
def sumCheckStrict (path _type sum : Str) (out : Option (Bool × Str)) : Bool :=
  if sum = sOf "SKIP" then false
  else if sum = [] then false
  else if path = [] then false
  else
    match out with
    | none => false
    | some (success, stdout) =>
      if ¬success then false
      else (splitOnChar ' ' stdout).headD [] = sum

/-- C10. The checksum-verification function is total (it is a Lean
function into `Bool`; the source wraps the only throwing operation in
`try`/`catch`) and returns `false` — never an exception — whenever the
expected value is the sentinel `SKIP` or empty, the path is empty, the digest
subprocess exits unsuccessfully, or the subprocess cannot be launched. -/
theorem claim_c10_sumCheckStrict_fails_closed
    (path type sum : Str) (out : Option (Bool × Str))
    (h : sum = sOf "SKIP" ∨ sum = [] ∨ path = [] ∨ out = none ∨
      ∃ stdout, out = some (false, stdout)) :
    sumCheckStrict path type sum out = false := by
  rw [sumCheckStrict.eq_def]
  rcases h with h | h | h | h | ⟨stdout, h⟩ <;> subst h <;>
    simp [ite_self, sOf]

/-- Witness for C10: each failure mode evaluated at concrete inputs. -/
theorem claim_c10_witness :
    sumCheckStrict (sOf "/tmp/a.tar.gz") (sOf "sha256") (sOf "SKIP")
        (some (true, sOf "deadbeef /tmp/a.tar.gz")) = false ∧
    sumCheckStrict (sOf "/tmp/a.tar.gz") (sOf "sha256") []
        (some (true, sOf "deadbeef /tmp/a.tar.gz")) = false ∧
    sumCheckStrict [] (sOf "sha256") (sOf "deadbeef") (some (true, sOf "x")) = false ∧
    sumCheckStrict (sOf "/tmp/a.tar.gz") (sOf "sha256") (sOf "deadbeef") none = false ∧
    sumCheckStrict (sOf "/tmp/a.tar.gz") (sOf "sha256") (sOf "deadbeef")
        (some (false, sOf "")) = false :=
  ⟨claim_c10_sumCheckStrict_fails_closed _ _ _ _ (Or.inl rfl),
   claim_c10_sumCheckStrict_fails_closed _ _ _ _ (Or.inr (Or.inl rfl)),
   claim_c10_sumCheckStrict_fails_closed _ _ _ _ (Or.inr (Or.inr (Or.inl rfl))),
   claim_c10_sumCheckStrict_fails_closed _ _ _ _
     (Or.inr (Or.inr (Or.inr (Or.inl rfl)))),
   claim_c10_sumCheckStrict_fails_closed _ _ _ _
     (Or.inr (Or.inr (Or.inr (Or.inr ⟨_, rfl⟩))))⟩

/-! ## Metadata parser (src/src/main.ts, parsePkgData, lines 504-581)

`parsePkgData(data)` splits `data` on blank lines (`data.split("\n\n")`);
block 0 populates the base record, every later block becomes one entry of
`children`.  Within a block, a line starting with `"pkgbase"` sets
`xo.keyName = line.slice("pkgbase = ".length).trim()`; otherwise the first
`=` splits the line into a trimmed `key` and `value`, both required
non-empty, and repeated keys accumulate:

```ts
const old = xo[key];
if (Array.isArray(old)) old.push(value);
else if (old) xo[key] = [old, value];
else if (!justStr.includes(key)) xo[key] = [value];
else xo[key] = value;
```

JS objects are embedded as insertion-ordered association lists `Obj`.  The
single JS record `pkgbuild` is represented by its `children` property
(modelled separately, since later blocks assign into it positionally via
`pkgbuild.children[index - 1] = xo`, main.ts 575-578) plus the association
list of its remaining properties.  The index-0 merge `pkgbuild[k] = xo[k]`
(main.ts 570-574) writes every key of block 0 into the record — including a
literal `children` key, which overwrites the initial `children: []` array
with that key's string array; the model reproduces this in `childBase`. -/

/-- A dynamic record value: JS `string | string[]`. -/
inductive Val where
  | str (s : Str)
  | list (l : List Str)
deriving DecidableEq, Repr

/-- A JS object: insertion-ordered association list. -/
abbrev Obj := List (Str × Val)

/-- Property read `xo[key]`. -/
def lookupA : Obj → Str → Option Val
  | [], _ => none
  | (k, v) :: rest, key => if k = key then some v else lookupA rest key

/-- Property write `xo[key] = v`: update in place, or append a new key. -/
def setA : Obj → Str → Val → Obj
  | [], key, v => [(key, v)]
  | (k, w) :: rest, key, v =>
    if k = key then (k, v) :: rest else (k, w) :: setA rest key v

/-- The whitespace characters relevant to `String.prototype.trim` here. -/
def isJsSpace (c : Char) : Bool := c = ' ' ∨ c = '\t' ∨ c = '\n' ∨ c = '\r'

/-- JavaScript `s.trim()`. -/
def trimL (s : Str) : Str :=
  ((s.dropWhile isJsSpace).reverse.dropWhile isJsSpace).reverse

/-- JavaScript `data.split("\n\n")`: leftmost non-overlapping split on the
two-character separator. -/
def splitOnNN (acc : Str) : Str → List Str
  | [] => [acc.reverse]
  | [c] => [(c :: acc).reverse]
  | c1 :: c2 :: rest =>
    if c1 = '\n' ∧ c2 = '\n' then acc.reverse :: splitOnNN [] rest
    else splitOnNN (c1 :: acc) (c2 :: rest)

/-- JavaScript `i.indexOf("=")` as an optional index. -/
def idxOfEq : Str → Option Nat
  | [] => none
  | c :: rest => if c = '=' then some 0 else (idxOfEq rest).map (· + 1)

/-- The `justStr` list of always-scalar keys (main.ts lines 536-544). -/
def justStr : List Str :=
  [sOf "pkgname", sOf "pkgver", sOf "pkgrel", sOf "epoch",
   sOf "pkgdesc", sOf "url", sOf "license"]

/-- The property name used for `xo.keyName`. -/
def keyNameK : Str := sOf "keyName"

/-- The repeated-key accumulation logic (main.ts lines 557-567). -/
def setKey (xo : Obj) (key value : Str) : Obj :=
  match lookupA xo key with
  | some (Val.list l) => setA xo key (Val.list (l ++ [value]))
  | some (Val.str old) =>
    if old ≠ [] then setA xo key (Val.list [old, value])
    else if key ∉ justStr then setA xo key (Val.list [value])
    else setA xo key (Val.str value)
  | none =>
    if key ∉ justStr then setA xo key (Val.list [value])
    else setA xo key (Val.str value)

/-- The key/value extraction of one line (main.ts lines 552-557): the first
`=` splits the line, both sides are trimmed and must be non-empty.  Lines
starting with `"pkgbase"` are handled by the dedicated branch and yield no
key/value pair here. -/
def keyValOf (line : Str) : Option (Str × Str) :=
  if (sOf "pkgbase").isPrefixOf line then none
  else
    match idxOfEq line with
    | none => none
    | some eq =>
      if trimL (line.take eq) ≠ [] ∧ trimL (line.drop (eq + 1)) ≠ [] then
        some (trimL (line.take eq), trimL (line.drop (eq + 1)))
      else none

/-- One iteration of the per-line loop (main.ts lines 547-569). -/
def procLine (xo : Obj) (line : Str) : Obj :=
  if (sOf "pkgbase").isPrefixOf line then
    setA xo keyNameK (Val.str (trimL (line.drop (sOf "pkgbase = ").length)))
  else
    match keyValOf line with
    | none => xo
    | some (key, value) => setKey xo key value

/-- Parsing of one block: `x.trim().split("\n")` processed through the per-line loop. -/
def parseBlock (block : Str) : Obj :=
  (splitOnChar '\n' (trimL block)).foldl procLine []

/-- The property name `"children"`. -/
def keyChildren : Str := sOf "children"

/-- One element of the `children` array: a variant record assigned by
`pkgbuild.children[index - 1] = xo`, or a leftover string element of an
array that a literal `children` key of block 0 wrote over the initial
`children: []` in the merge loop. -/
inductive Child where
  | obj (o : Obj)
  | str (s : Str)
deriving DecidableEq, Repr

/-- The result record: the `children` property, plus the remaining
properties of the single JS record as an association list. -/
structure PkgData where
  fields : Obj
  children : List Child
deriving DecidableEq, Repr

/-- The literal initialiser of `pkgbuild` (main.ts lines 529-535):
`{ keyName: "", pkgver: "", pkgrel: "", source: [], children: [] }`. -/
def initFields : Obj :=
  [(keyNameK, Val.str []), (sOf "pkgver", Val.str []), (sOf "pkgrel", Val.str []),
   (sOf "source", Val.list [])]

/-- The value of the `children` property after the base-block merge: the
string array written by a literal `children` key of block 0, else the
initial empty array.  The accumulation loop stores a scalar `Val.str` only
under `justStr` keys and the `keyName` property, so the `Val.str` case
cannot arise from `parseBlock` (`parseBlock_children_not_str` below); it is
given a harmless value. -/
def childBase (xo : Obj) : List Child :=
  match lookupA xo keyChildren with
  | some (Val.list l) => l.map Child.str
  | some (Val.str s) => [Child.str s]
  | none => []

/-- JS `a[i] = c` on an array: replace in place, or append when `i` equals
the length.  The child-block loop assigns indices 0, 1, 2, … consecutively,
so the index never exceeds the length and no holes arise. -/
def setPos (l : List Child) (i : Nat) (c : Child) : List Child :=
  if i < l.length then l.set i c else l ++ [c]

/-- Shallow embedding of `parsePkgData` over `List Char` input.  `fields`
holds every property the block-0 merge writes over the initialiser except
`children`, whose final value — the merge's `childBase` overlaid by the
positional assignments `pkgbuild.children[index - 1] = xo` for the later
blocks — is the `children` component. -/
def parsePkgDataL (data : Str) : PkgData :=
  let blocks := splitOnNN [] data
  { fields :=
      (parseBlock (blocks.headD [])).foldl
        (fun acc p => if p.1 = keyChildren then acc else setA acc p.1 p.2)
        initFields
    children :=
      (((blocks.drop 1).map parseBlock).enum).foldl
        (fun cs io => setPos cs io.1 (Child.obj io.2))
        (childBase (parseBlock (blocks.headD []))) }

/-! ### Association-list lemmas -/

theorem lookupA_setA_self : ∀ (xo : Obj) (k : Str) (v : Val),
    lookupA (setA xo k v) k = some v := by
  intro xo
  induction xo with
  | nil => intro k v; simp [setA, lookupA]
  | cons p rest ih =>
    intro k v
    obtain ⟨k', w⟩ := p
    by_cases h : k' = k
    · simp [setA, lookupA, h]
    · simp only [setA, if_neg h, lookupA, if_neg h]
      exact ih k v

theorem lookupA_setA_ne : ∀ (xo : Obj) (k k2 : Str) (v : Val), k2 ≠ k →
    lookupA (setA xo k v) k2 = lookupA xo k2 := by
  intro xo
  induction xo with
  | nil =>
    intro k k2 v h
    have h' : ¬(k = k2) := fun hh => h hh.symm
    simp only [setA, lookupA, if_neg h']
  | cons p rest ih =>
    intro k k2 v h
    obtain ⟨k', w⟩ := p
    by_cases hk : k' = k
    · have h' : ¬(k' = k2) := fun hh => h (hk ▸ hh.symm)
      simp only [setA, if_pos hk, lookupA, if_neg h']
    · simp only [setA, if_neg hk, lookupA]
      by_cases h2 : k' = k2
      · simp only [if_pos h2]
      · simp only [if_neg h2]
        exact ih k k2 v h

theorem mem_keys_setA : ∀ (xo : Obj) (k a : Str) (v : Val),
    a ∈ (setA xo k v).map Prod.fst ↔ a ∈ xo.map Prod.fst ∨ a = k := by
  intro xo
  induction xo with
  | nil => intro k a v; simp [setA]
  | cons p rest ih =>
    intro k a v
    obtain ⟨k', w⟩ := p
    by_cases hk : k' = k
    · simp only [setA, if_pos hk, List.map_cons, List.mem_cons]
      subst hk
      tauto
    · simp only [setA, if_neg hk, List.map_cons, List.mem_cons, ih]
      tauto

theorem nodup_keys_setA : ∀ (xo : Obj) (k : Str) (v : Val),
    (xo.map Prod.fst).Nodup → ((setA xo k v).map Prod.fst).Nodup := by
  intro xo
  induction xo with
  | nil => intro k v _; simp [setA]
  | cons p rest ih =>
    intro k v h
    obtain ⟨k', w⟩ := p
    simp only [List.map_cons, List.nodup_cons] at h
    by_cases hk : k' = k
    · simp only [setA, if_pos hk, List.map_cons, List.nodup_cons]
      exact h
    · simp only [setA, if_neg hk, List.map_cons, List.nodup_cons, mem_keys_setA]
      refine ⟨?_, ih k v h.2⟩
      rintro (hmem | hmem)
      · exact h.1 hmem
      · exact hk hmem

theorem lookupA_setKey_ne (xo : Obj) (key value : Str) (k : Str) (h : k ≠ key) :
    lookupA (setKey xo key value) k = lookupA xo k := by
  rw [setKey]
  rcases hx : lookupA xo key with _ | v
  · simp only [hx]
    split <;> exact lookupA_setA_ne _ _ _ _ h
  · rcases v with s | l
    · simp only [hx]
      split
      · exact lookupA_setA_ne _ _ _ _ h
      · split <;> exact lookupA_setA_ne _ _ _ _ h
    · simp only [hx]
      exact lookupA_setA_ne _ _ _ _ h

theorem nodup_keys_setKey (xo : Obj) (key value : Str)
    (h : (xo.map Prod.fst).Nodup) :
    ((setKey xo key value).map Prod.fst).Nodup := by
  rw [setKey]
  rcases hx : lookupA xo key with _ | v
  · simp only [hx]
    split <;> exact nodup_keys_setA _ _ _ h
  · rcases v with s | l
    · simp only [hx]
      split
      · exact nodup_keys_setA _ _ _ h
      · split <;> exact nodup_keys_setA _ _ _ h
    · simp only [hx]
      exact nodup_keys_setA _ _ _ h

theorem nodup_keys_procLine (xo : Obj) (line : Str)
    (h : (xo.map Prod.fst).Nodup) :
    ((procLine xo line).map Prod.fst).Nodup := by
  rw [procLine]
  split
  · exact nodup_keys_setA _ _ _ h
  · rcases hkv : keyValOf line with _ | ⟨key, value⟩
    · simpa using h
    · simpa using nodup_keys_setKey _ _ _ h

theorem nodup_keys_foldl_procLine :
    ∀ (lines : List Str) (xo : Obj), (xo.map Prod.fst).Nodup →
      ((lines.foldl procLine xo).map Prod.fst).Nodup := by
  intro lines
  induction lines with
  | nil => intro xo h; exact h
  | cons line rest ih =>
    intro xo h
    exact ih (procLine xo line) (nodup_keys_procLine xo line h)

theorem parseBlock_nodup_keys (block : Str) :
    ((parseBlock block).map Prod.fst).Nodup :=
  nodup_keys_foldl_procLine _ [] (by simp)

theorem procLine_children_not_str (xo : Obj) (line : Str)
    (h : ∀ s, lookupA xo keyChildren ≠ some (Val.str s)) :
    ∀ s, lookupA (procLine xo line) keyChildren ≠ some (Val.str s) := by
  intro s
  rw [procLine]
  split
  · rw [lookupA_setA_ne _ _ _ _ (show keyChildren ≠ keyNameK by decide)]
    exact h s
  · rcases hkv : keyValOf line with _ | ⟨key, value⟩
    · simp only [hkv]
      exact h s
    · simp only [hkv]
      by_cases hk : key = keyChildren
      · rw [hk, setKey]
        rcases hx : lookupA xo keyChildren with _ | w
        · simp only [hx]
          rw [if_pos (show keyChildren ∉ justStr by decide), lookupA_setA_self]
          simp
        · rcases w with old | l
          · exact absurd hx (h old)
          · simp only [hx]
            rw [lookupA_setA_self]
            simp
      · rw [lookupA_setKey_ne xo key value keyChildren (fun hh => hk hh.symm)]
        exact h s

theorem foldl_procLine_children_not_str :
    ∀ (lines : List Str) (xo : Obj),
      (∀ s, lookupA xo keyChildren ≠ some (Val.str s)) →
      ∀ s, lookupA (lines.foldl procLine xo) keyChildren ≠ some (Val.str s) := by
  intro lines
  induction lines with
  | nil => intro xo h; exact h
  | cons line rest ih =>
    intro xo h
    exact ih (procLine xo line) (procLine_children_not_str xo line h)

/-- The accumulation loop never stores a scalar under the `children` key, so
the `Val.str` branch of `childBase` is dead code. -/
theorem parseBlock_children_not_str (block : Str) :
    ∀ s, lookupA (parseBlock block) keyChildren ≠ some (Val.str s) := by
  apply foldl_procLine_children_not_str
  intro s hcon
  exact Option.noConfusion hcon

/-- Merging an association list into `init` by the block-0 merge loop (the
`children` binding is captured by the `children` component and skipped) does
not touch keys absent from the list. -/
theorem lookupA_mergeSkip_not_mem :
    ∀ (l : Obj) (init : Obj) (k : Str), k ∉ l.map Prod.fst →
      lookupA (l.foldl
        (fun acc p => if p.1 = keyChildren then acc else setA acc p.1 p.2)
        init) k = lookupA init k := by
  intro l
  induction l with
  | nil => intro init k _; rfl
  | cons p rest ih =>
    intro init k hk
    obtain ⟨k0, v0⟩ := p
    simp only [List.map_cons, List.mem_cons, not_or] at hk
    simp only [List.foldl_cons]
    by_cases hc : k0 = keyChildren
    · rw [if_pos hc, ih _ k hk.2]
    · rw [if_neg hc, ih _ k hk.2, lookupA_setA_ne _ _ _ _ hk.1]

/-- Merging an association list with distinct keys into `init`: every binding
of the list other than `children` survives. -/
theorem lookupA_mergeSkip_some :
    ∀ (l : Obj) (init : Obj) (k : Str) (v : Val), (l.map Prod.fst).Nodup →
      k ≠ keyChildren → lookupA l k = some v →
      lookupA (l.foldl
        (fun acc p => if p.1 = keyChildren then acc else setA acc p.1 p.2)
        init) k = some v := by
  intro l
  induction l with
  | nil => intro init k v _ _ h; simp [lookupA] at h
  | cons p rest ih =>
    intro init k v hnd hkc h
    obtain ⟨k0, v0⟩ := p
    simp only [List.map_cons, List.nodup_cons] at hnd
    rw [lookupA] at h
    simp only [List.foldl_cons]
    by_cases hk : k0 = k
    · rw [if_pos hk] at h
      cases h
      have hc : ¬(k0 = keyChildren) := fun hh => hkc (hk ▸ hh)
      rw [if_neg hc]
      rw [lookupA_mergeSkip_not_mem rest _ k (hk ▸ hnd.1)]
      rw [← hk, lookupA_setA_self]
    · rw [if_neg hk] at h
      by_cases hc : k0 = keyChildren
      · rw [if_pos hc]
        exact ih _ k v hnd.2 hkc h
      · rw [if_neg hc]
        exact ih _ k v hnd.2 hkc h

/-! ### The shape of repeated keys within one block -/

/-- The values of the lines of a block that parse to key `k`, in order. -/
def occVals (k : Str) (lines : List Str) : List Str :=
  lines.filterMap (fun line =>
    match keyValOf line with
    | some kv => if kv.1 = k then some kv.2 else none
    | none => none)

/-- The record value the accumulation loop produces from a given ordered list
of occurrences of an always-scalar key: absent, scalar, or list. -/
def shapeOf : List Str → Option Val
  | [] => none
  | [v] => some (Val.str v)
  | v :: vs => some (Val.list (v :: vs))

theorem keyValOf_value_ne {line key value : Str}
    (h : keyValOf line = some (key, value)) : value ≠ [] := by
  rw [keyValOf] at h
  split at h
  · exact absurd h (by simp)
  · rcases hidx : idxOfEq line with _ | eq
    · simp only [hidx] at h
      exact Option.noConfusion h
    · simp only [hidx] at h
      split at h
      · rename_i hg
        cases h
        exact hg.2
      · exact absurd h (by simp)

theorem justStr_ne_keyName : ∀ k ∈ justStr, k ≠ keyNameK := by decide

theorem justStr_ne_children : ∀ k ∈ justStr, k ≠ keyChildren := by decide

theorem lookupA_setKey_shape (xo : Obj) (k : Str) (hk : k ∈ justStr)
    (os : List Str) (hos : ∀ w ∈ os, w ≠ []) (hxo : lookupA xo k = shapeOf os)
    (value : Str) :
    lookupA (setKey xo k value) k = shapeOf (os ++ [value]) := by
  have hkin : ¬(k ∉ justStr) := fun hcon => hcon hk
  rcases os with _ | ⟨v1, os'⟩
  · have hxo' : lookupA xo k = none := hxo
    rw [setKey]
    simp only [hxo']
    rw [if_neg hkin, lookupA_setA_self]
    rfl
  · rcases os' with _ | ⟨v2, os''⟩
    · have hv1 : v1 ≠ [] := hos v1 (by simp)
      have hxo' : lookupA xo k = some (Val.str v1) := hxo
      rw [setKey]
      simp only [hxo']
      rw [if_pos hv1, lookupA_setA_self]
      rfl
    · have hxo' : lookupA xo k = some (Val.list (v1 :: v2 :: os'')) := hxo
      rw [setKey]
      simp only [hxo']
      rw [lookupA_setA_self]
      rfl

theorem foldl_procLine_occ (k : Str) (hk : k ∈ justStr) :
    ∀ (lines : List Str) (xo : Obj) (os : List Str),
      (∀ w ∈ os, w ≠ []) →
      lookupA xo k = shapeOf os →
      lookupA (lines.foldl procLine xo) k = shapeOf (os ++ occVals k lines) := by
  intro lines
  induction lines with
  | nil =>
    intro xo os hos hxo
    simpa [occVals] using hxo
  | cons line rest ih =>
    intro xo os hos hxo
    rw [List.foldl_cons]
    by_cases hpb : (sOf "pkgbase").isPrefixOf line = true
    · have hkv : keyValOf line = none := by rw [keyValOf, if_pos hpb]
      have hocc : occVals k (line :: rest) = occVals k rest := by
        simp [occVals, hkv]
      have hpl : procLine xo line =
          setA xo keyNameK (Val.str (trimL (line.drop (sOf "pkgbase = ").length))) := by
        rw [procLine, if_pos hpb]
      rw [hocc, hpl]
      apply ih _ os hos
      rw [lookupA_setA_ne _ _ _ _ (justStr_ne_keyName k hk)]
      exact hxo
    · have hpl : procLine xo line =
          (match keyValOf line with
           | none => xo
           | some (key, value) => setKey xo key value) := by
        rw [procLine, if_neg hpb]
      rcases hkv : keyValOf line with _ | ⟨key, value⟩
      · have hpl' : procLine xo line = xo := by rw [hpl, hkv]
        have hocc : occVals k (line :: rest) = occVals k rest := by
          simp [occVals, hkv]
        rw [hocc, hpl']
        exact ih _ os hos hxo
      · have hpl' : procLine xo line = setKey xo key value := by rw [hpl, hkv]
        by_cases hkey : key = k
        · have hocc : occVals k (line :: rest) = value :: occVals k rest := by
            simp [occVals, hkv, hkey]
          have hvne : value ≠ [] := keyValOf_value_ne hkv
          have hos' : ∀ w ∈ os ++ [value], w ≠ [] := by
            intro w hw
            rcases List.mem_append.mp hw with hw | hw
            · exact hos w hw
            · simp only [List.mem_singleton] at hw
              exact hw ▸ hvne
          have hstep := lookupA_setKey_shape xo k hk os hos hxo value
          rw [hocc, hpl', hkey]
          have h2 := ih (setKey xo k value) (os ++ [value]) hos' hstep
          rw [h2, List.append_assoc]
          rfl
        · have hocc : occVals k (line :: rest) = occVals k rest := by
            simp [occVals, hkv, hkey]
          rw [hocc, hpl']
          apply ih _ os hos
          rw [lookupA_setKey_ne xo key value k (fun hh => hkey hh.symm)]
          exact hxo

/-- The lines of the base block of a definition text, as the parser sees
them: block 0 of the blank-line split, trimmed, split on newlines. -/
def baseLines (data : Str) : List Str :=
  splitOnChar '\n' (trimL ((splitOnNN [] data).headD []))

theorem parseBlock_headD (data : Str) :
    parseBlock ((splitOnNN [] data).headD []) = (baseLines data).foldl procLine [] :=
  rfl

theorem shapeOf_ne_none {os : List Str} (h : os ≠ []) : ∃ w, shapeOf os = some w := by
  rcases os with _ | ⟨v, os'⟩
  · exact absurd rfl h
  · rcases os' with _ | ⟨v2, os''⟩
    · exact ⟨Val.str v, rfl⟩
    · exact ⟨Val.list (v :: v2 :: os''), rfl⟩

/-- C2 counterexample. The claim says an always-scalar key repeated within
a block stays a single scalar with the last occurrence winning.  On the input
`"pkgver = 1\npkgver = 2"` the parser instead produces the list
`["1", "2"]`: the `else if (old)` branch fires before the `justStr` check. -/
theorem claim_c2_counterexample :
    lookupA (parsePkgDataL (sOf "pkgver = 1\npkgver = 2")).fields (sOf "pkgver") =
      some (Val.list [sOf "1", sOf "2"]) ∧
    lookupA (parsePkgDataL (sOf "pkgver = 1\npkgver = 2")).fields (sOf "pkgver") ≠
      some (Val.str (sOf "2")) := by
  decide

/-- C2 (amended). For every definition text and always-scalar key `k`
(`pkgname`, `pkgver`, `pkgrel`, `epoch`, `pkgdesc`, `url`, `license`): if the
base block contains at least one `k = value` line (non-empty value), the parsed
base record holds the scalar first value when `k` occurs exactly once, and the
ordered list of all occurrences when `k` is repeated — repetition does turn an
always-scalar key into a list, with all occurrences kept in order, not a
scalar with the last occurrence winning. -/
theorem claim_c2_always_scalar_key_occurrence_shape (data : Str) (k : Str)
    (hk : k ∈ justStr) (hocc : occVals k (baseLines data) ≠ []) :
    lookupA (parsePkgDataL data).fields k = shapeOf (occVals k (baseLines data)) := by
  obtain ⟨w, hw⟩ := shapeOf_ne_none hocc
  have hblock : lookupA (parseBlock ((splitOnNN [] data).headD [])) k
      = shapeOf (occVals k (baseLines data)) := by
    rw [parseBlock_headD]
    simpa using foldl_procLine_occ k hk (baseLines data) [] [] (by simp) rfl
  rw [hw] at hblock
  rw [hw]
  exact lookupA_mergeSkip_some _ initFields k w (parseBlock_nodup_keys _)
    (justStr_ne_children k hk) hblock

/-- Witness for the amended C2 at the counterexample input: `pkgver` occurs
twice, and the record holds the two-element list. -/
theorem claim_c2_witness :
    (sOf "pkgver") ∈ justStr ∧
    occVals (sOf "pkgver") (baseLines (sOf "pkgver = 1\npkgver = 2")) ≠ [] ∧
    lookupA (parsePkgDataL (sOf "pkgver = 1\npkgver = 2")).fields (sOf "pkgver") =
      shapeOf (occVals (sOf "pkgver") (baseLines (sOf "pkgver = 1\npkgver = 2"))) :=
  ⟨by decide, by decide,
    claim_c2_always_scalar_key_occurrence_shape _ _ (by decide) (by decide)⟩

theorem splitOnNN_no_sep :
    ∀ (s : Str) (acc : Str), jsIncludes s (sOf "\n\n") = false →
      splitOnNN acc s = [acc.reverse ++ s]
  | [], acc, _ => by simp [splitOnNN]
  | [c], acc, _ => by simp [splitOnNN]
  | c1 :: c2 :: rest, acc, h => by
    rw [jsIncludes] at h
    split at h
    · exact absurd h (by simp)
    · rename_i hpre
      have hnn : ¬(c1 = '\n' ∧ c2 = '\n') := by
        rintro ⟨h1, h2⟩
        apply hpre
        subst h1
        subst h2
        have hlit : sOf "\n\n" = ['\n', '\n'] := by decide
        simp [hlit, List.isPrefixOf]
      rw [splitOnNN, if_neg hnn]
      rw [splitOnNN_no_sep (c2 :: rest) (c1 :: acc) h]
      simp

/-- C5 counterexample. The claim says a definition with no child blocks
parses to exactly one variant equal to the base record.  On the single-block
input `"pkgbase = foo\npkgname = foo"` the parser returns zero variants:
`children` is empty. -/
theorem claim_c5_counterexample :
    (parsePkgDataL (sOf "pkgbase = foo\npkgname = foo")).children = [] ∧
    (parsePkgDataL (sOf "pkgbase = foo\npkgname = foo")).children.length ≠ 1 := by
  decide

/-- C5 (amended). For every definition text containing no blank-line
separator (hence no child blocks), parsing yields zero variant records: no
element of `children` is a parsed variant block.  When the base block
declares no literal `children` key — every key of block 0 is merged into the
record, so such a key would overwrite the `children` array with its string
values — the `children` list is empty: the base record alone represents the
definition, and no implicit single variant is materialised. -/
theorem claim_c5_no_child_blocks_means_no_variant_children (data : Str)
    (h : jsIncludes data (sOf "\n\n") = false) :
    (∀ c ∈ (parsePkgDataL data).children, ∃ s, c = Child.str s) ∧
    (lookupA (parseBlock ((splitOnNN [] data).headD [])) keyChildren = none →
      (parsePkgDataL data).children = []) := by
  have hsplit : splitOnNN [] data = [data] := by
    simpa using splitOnNN_no_sep data [] h
  have hhead : (splitOnNN [] data).headD [] = data := by
    rw [hsplit]
    rfl
  have hch : (parsePkgDataL data).children = childBase (parseBlock data) := by
    show ((((splitOnNN [] data).drop 1).map parseBlock).enum).foldl
        (fun cs io => setPos cs io.1 (Child.obj io.2))
        (childBase (parseBlock ((splitOnNN [] data).headD []))) =
      childBase (parseBlock data)
    rw [hsplit]
    rfl
  constructor
  · intro c hc
    rw [hch] at hc
    rcases hx : lookupA (parseBlock data) keyChildren with _ | w
    · simp only [childBase.eq_def, hx] at hc
      exact absurd hc (List.not_mem_nil c)
    · rcases w with s0 | l
      · simp only [childBase.eq_def, hx, List.mem_singleton] at hc
        exact ⟨s0, hc⟩
      · simp only [childBase.eq_def, hx] at hc
        rcases List.mem_map.mp hc with ⟨s0, _, hcs⟩
        exact ⟨s0, hcs.symm⟩
  · intro hnone
    rw [hhead] at hnone
    rw [hch]
    simp [childBase.eq_def, hnone]

/-- Witness for the amended C5 at a concrete single-block definition that
declares no literal `children` key. -/
theorem claim_c5_witness :
    jsIncludes (sOf "pkgbase = foo") (sOf "\n\n") = false ∧
    lookupA (parseBlock ((splitOnNN [] (sOf "pkgbase = foo")).headD []))
        keyChildren = none ∧
    (parsePkgDataL (sOf "pkgbase = foo")).children = [] :=
  ⟨by decide, by decide,
    (claim_c5_no_child_blocks_means_no_variant_children (sOf "pkgbase = foo")
        (by decide)).2 (by decide)⟩

/-! ## Asset fetcher (src/src/main.ts, downloadAssets lines 726-920)

`downloadAssets(urls, dir)` counts every task's `name` into a `Map`
(`counts`), partitions tasks into an HTTP queue and a git queue (decrementing
the count at once for non-`http(s)` URLs and for existing files with a
verified checksum), downloads the HTTP queue through `newDl` (workers popping
from the list's end), then fetches the git queue sequentially, and returns
the names whose final count is `0`.  Each successful task calls
`deCount(name)` exactly once; the bounded worker pool only changes the
completion order of independent decrements, so the sequential fold below
computes the same final counts.

I/O outcomes are supplied per task as oracle fields:

* `parsed` — the `parseSourceUrl(url)` result (rename target, normalized
  URL, transport);
* `fileExists` — `existsSync(path, { isFile: true })`;
* `digestOut` — the digest subprocess oracle consumed by `sumCheckStrict`;
* `mirrorFetchOk` / `originFetchOk` — whether `fetchFile` resolves for the
  mirror-rewritten URL and for the original URL;
* `gitThrows` — whether the awaited `fetchGit` call rejects (e.g. a spawn
  failure); `gitEnv` — the observations `fetchGit` itself makes. -/

/-- The result of `parseSourceUrl` (main.ts 616-659). -/
structure UrlX where
  name : Str
  url : Str
  type : UrlType
deriving DecidableEq, Repr

/-- Observations of one `fetchGit` call (main.ts 425-492). -/
structure GitEnv where
  dirExists : Bool
  pullQuiet : Bool
  cloneExitOk : Bool
deriving DecidableEq, Repr

/-- The boolean `fetchGit` returns when it does not throw.  Tracing the
source: the pull path returns `true` (line 469); otherwise the clone is
spawned and — whether `status.success` holds or not — the function only logs
the clone's stderr (line 486) and returns `true` (line 491).  The clone's
exit status never reaches the caller. -/
def fetchGitResult (env : GitEnv) : Bool :=
  if env.dirExists ∧ env.pullQuiet then true
  else if env.cloneExitOk then true
  else true

/-- One element of the `urls` argument of `downloadAssets` together with the
I/O oracle for its run. -/
structure TaskEnv where
  name : Str
  sumType : Str
  sumValue : Str
  parsed : UrlX
  fileExists : Bool
  digestOut : Option (Bool × Str)
  mirrorFetchOk : Bool
  originFetchOk : Bool
  gitThrows : Bool
  gitEnv : GitEnv
deriving DecidableEq, Repr

/-- The test `fileUrl.startsWith("http://") || fileUrl.startsWith("https://")`. -/
def isHttpUrl (u : Str) : Bool :=
  (sOf "http://").isPrefixOf u || (sOf "https://").isPrefixOf u

/-- The destination path `join(dir, name, filename)` (main.ts line 759). -/
def pathOf (dir : Str) (t : TaskEnv) : Str :=
  dir ++ sOf "/" ++ t.name ++ sOf "/" ++ t.parsed.name

/-- How the partition loop (main.ts 752-772) treats one task. -/
inductive TClass where
  | skipNonUrl
  | queuedGit
  | skipVerified
  | queuedHttp
deriving DecidableEq, Repr

/-- The branch of the partition loop a task takes: non-`http(s)` URLs are
dropped with a `deCount`, git URLs are queued, an existing file with a
matching strict checksum is dropped with a `deCount`, everything else is
queued for HTTP download. -/
def classify (dir : Str) (t : TaskEnv) : TClass :=
  if ¬ isHttpUrl t.parsed.url then TClass.skipNonUrl
  else if t.parsed.type = UrlType.git then TClass.queuedGit
  else if t.fileExists ∧
      sumCheckStrict (pathOf dir t) t.sumType t.sumValue t.digestOut = true then
    TClass.skipVerified
  else TClass.queuedHttp

/-- The map update `counts.set(k, (counts.get(k) || 0) + d)`. -/
def bump : List (Str × Int) → Str → Int → List (Str × Int)
  | [], k, d => [(k, d)]
  | (k', v) :: rest, k, d =>
    if k' = k then (k', v + d) :: rest else (k', v) :: bump rest k d

/-- The map read `counts.get(k) || 0`. -/
def lookupC : List (Str × Int) → Str → Int
  | [], _ => 0
  | (k', v) :: rest, k => if k' = k then v else lookupC rest k

/-- The mutable state of `downloadAssets` before the download phases:
the counts map and the two queues. -/
structure FetchSt where
  counts : List (Str × Int)
  httpL : List TaskEnv
  gitL : List TaskEnv
deriving DecidableEq, Repr

/-- One iteration of the partition loop (main.ts 752-772). -/
def partStep (dir : Str) (st : FetchSt) (t : TaskEnv) : FetchSt :=
  match classify dir t with
  | TClass.skipNonUrl => FetchSt.mk (bump st.counts t.name (-1)) st.httpL st.gitL
  | TClass.queuedGit => FetchSt.mk st.counts st.httpL (st.gitL ++ [t])
  | TClass.skipVerified => FetchSt.mk (bump st.counts t.name (-1)) st.httpL st.gitL
  | TClass.queuedHttp => FetchSt.mk st.counts (st.httpL ++ [t]) st.gitL

/-- Whether `newDl` (main.ts 827-896) reaches a `deCount` for the task: the
mirror-rewritten fetch succeeds, or it fails, the URL had been rewritten, and
the retry against the original URL succeeds. -/
def httpSucceeds (re : RegexEngine) (rules : List MirrorRule) (t : TaskEnv) : Bool :=
  if t.mirrorFetchOk then true
  else if urlMapping re rules t.parsed.url UrlType.http ≠ t.parsed.url then
    t.originFetchOk
  else false

/-- The URLs `newDl` passes to `fetchFile` for the task, in order. -/
def httpAttempts (re : RegexEngine) (rules : List MirrorRule) (t : TaskEnv) : List Str :=
  if t.mirrorFetchOk then [urlMapping re rules t.parsed.url UrlType.http]
  else if urlMapping re rules t.parsed.url UrlType.http ≠ t.parsed.url then
    [urlMapping re rules t.parsed.url UrlType.http, t.parsed.url]
  else [urlMapping re rules t.parsed.url UrlType.http]

/-- Whether `downloadAssets` ends up decrementing the task's count: skipped
tasks count as successes; a queued HTTP task succeeds per `newDl`; a queued
git task is decremented whenever the awaited `fetchGit` does not throw — the
boolean `fetchGitResult` is discarded by the caller (main.ts 903-908). -/
def taskSucceeds (re : RegexEngine) (rules : List MirrorRule) (dir : Str)
    (t : TaskEnv) : Bool :=
  match classify dir t with
  | TClass.skipNonUrl => true
  | TClass.skipVerified => true
  | TClass.queuedHttp => httpSucceeds re rules t
  | TClass.queuedGit => !t.gitThrows

/-- The `fetchFile` invocations `downloadAssets` performs for the task:
none unless the task is queued for HTTP download. -/
def taskFetchInvocations (re : RegexEngine) (rules : List MirrorRule) (dir : Str)
    (t : TaskEnv) : List Str :=
  match classify dir t with
  | TClass.queuedHttp => httpAttempts re rules t
  | _ => []

/-- The first counting loop (main.ts 730-734). -/
def initCounts (tasks : List TaskEnv) : List (Str × Int) :=
  tasks.foldl (fun m t => bump m t.name 1) []

/-- The state after the partition loop, starting from the counts of the first
counting loop and empty queues. -/
def partitionSt (dir : Str) (tasks : List TaskEnv) : FetchSt :=
  tasks.foldl (partStep dir) (FetchSt.mk (initCounts tasks) [] [])

/-- The counts map after the partition loop, the HTTP worker phase (workers
pop from the end of `httpL`, so a single worker processes it in reverse; the
final counts do not depend on the interleaving), and the sequential git
phase. -/
def countsAfter (re : RegexEngine) (rules : List MirrorRule) (dir : Str)
    (tasks : List TaskEnv) : List (Str × Int) :=
  (partitionSt dir tasks).gitL.foldl
    (fun m t => if t.gitThrows then m else bump m t.name (-1))
    ((partitionSt dir tasks).httpL.reverse.foldl
      (fun m t => if httpSucceeds re rules t then bump m t.name (-1) else m)
      (partitionSt dir tasks).counts)

/-- The return value of `downloadAssets` (main.ts 917-919): the names whose
count reached zero. -/
def downloadAssetsReady (re : RegexEngine) (rules : List MirrorRule) (dir : Str)
    (tasks : List TaskEnv) : List Str :=
  ((countsAfter re rules dir tasks).filter (fun p => p.2 == 0)).map Prod.fst

/-! ### Counts-map lemmas -/

theorem lookupC_bump_self : ∀ (m : List (Str × Int)) (k : Str) (d : Int),
    lookupC (bump m k d) k = lookupC m k + d := by
  intro m
  induction m with
  | nil => intro k d; simp [bump, lookupC]
  | cons p rest ih =>
    intro k d
    obtain ⟨k', v⟩ := p
    by_cases h : k' = k
    · simp [bump, lookupC, h]
    · simp only [bump, if_neg h, lookupC, if_neg h]
      exact ih k d

theorem lookupC_bump_ne : ∀ (m : List (Str × Int)) (k k2 : Str) (d : Int),
    k2 ≠ k → lookupC (bump m k d) k2 = lookupC m k2 := by
  intro m
  induction m with
  | nil =>
    intro k k2 d h
    have h' : ¬(k = k2) := fun hh => h hh.symm
    simp only [bump, lookupC, if_neg h']
  | cons p rest ih =>
    intro k k2 d h
    obtain ⟨k', v⟩ := p
    by_cases hk : k' = k
    · have h' : ¬(k' = k2) := fun hh => h (hk ▸ hh.symm)
      simp only [bump, if_pos hk, lookupC, if_neg h']
    · simp only [bump, if_neg hk, lookupC]
      by_cases h2 : k' = k2
      · simp only [if_pos h2]
      · simp only [if_neg h2]
        exact ih k k2 d h

theorem mem_keys_bump : ∀ (m : List (Str × Int)) (k a : Str) (d : Int),
    a ∈ (bump m k d).map Prod.fst ↔ a ∈ m.map Prod.fst ∨ a = k := by
  intro m
  induction m with
  | nil => intro k a d; simp [bump]
  | cons p rest ih =>
    intro k a d
    obtain ⟨k', v⟩ := p
    by_cases hk : k' = k
    · simp only [bump, if_pos hk, List.map_cons, List.mem_cons]
      subst hk
      tauto
    · simp only [bump, if_neg hk, List.map_cons, List.mem_cons, ih]
      tauto

theorem nodup_keys_bump : ∀ (m : List (Str × Int)) (k : Str) (d : Int),
    (m.map Prod.fst).Nodup → ((bump m k d).map Prod.fst).Nodup := by
  intro m
  induction m with
  | nil => intro k d _; simp [bump]
  | cons p rest ih =>
    intro k d h
    obtain ⟨k', v⟩ := p
    simp only [List.map_cons, List.nodup_cons] at h
    by_cases hk : k' = k
    · simp only [bump, if_pos hk, List.map_cons, List.nodup_cons]
      exact h
    · simp only [bump, if_neg hk, List.map_cons, List.nodup_cons, mem_keys_bump]
      refine ⟨?_, ih k d h.2⟩
      rintro (hmem | hmem)
      · exact h.1 hmem
      · exact hk hmem

theorem lookupC_incFold : ∀ (L : List TaskEnv) (m : List (Str × Int)) (n : Str),
    lookupC (L.foldl (fun m t => bump m t.name 1) m) n =
      lookupC m n + (L.countP (fun t => t.name == n) : Int) := by
  intro L
  induction L with
  | nil => intro m n; simp
  | cons t rest ih =>
    intro m n
    rw [List.foldl_cons, ih, List.countP_cons]
    by_cases hn : t.name = n
    · rw [hn, lookupC_bump_self]
      simp only [hn, beq_self_eq_true, if_true]
      push_cast
      omega
    · have hne : n ≠ t.name := fun hh => hn hh.symm
      rw [lookupC_bump_ne _ _ _ _ hne]
      have hb : (t.name == n) = false := by
        simp [hn]
      simp only [hb, Bool.false_eq_true, if_false]
      push_cast
      omega

theorem lookupC_decFold : ∀ (L : List TaskEnv) (m : List (Str × Int)) (n : Str),
    lookupC (L.foldl (fun m t => bump m t.name (-1)) m) n =
      lookupC m n - (L.countP (fun t => t.name == n) : Int) := by
  intro L
  induction L with
  | nil => intro m n; simp
  | cons t rest ih =>
    intro m n
    rw [List.foldl_cons, ih, List.countP_cons]
    by_cases hn : t.name = n
    · rw [hn, lookupC_bump_self]
      simp only [hn, beq_self_eq_true, if_true]
      push_cast
      omega
    · have hne : n ≠ t.name := fun hh => hn hh.symm
      rw [lookupC_bump_ne _ _ _ _ hne]
      have hb : (t.name == n) = false := by
        simp [hn]
      simp only [hb, Bool.false_eq_true, if_false]
      push_cast
      omega

theorem lookupC_httpFold (re : RegexEngine) (rules : List MirrorRule) :
    ∀ (L : List TaskEnv) (m : List (Str × Int)) (n : Str),
      lookupC (L.foldl
          (fun m t => if httpSucceeds re rules t then bump m t.name (-1) else m) m) n =
        lookupC m n -
          (L.countP (fun t => t.name == n && httpSucceeds re rules t) : Int) := by
  intro L
  induction L with
  | nil => intro m n; simp
  | cons t rest ih =>
    intro m n
    rw [List.foldl_cons, ih, List.countP_cons]
    by_cases hs : httpSucceeds re rules t = true
    · rw [if_pos hs]
      by_cases hn : t.name = n
      · rw [hn, lookupC_bump_self]
        simp only [hn, beq_self_eq_true, hs, Bool.and_true, if_true]
        push_cast
        omega
      · have hne : n ≠ t.name := fun hh => hn hh.symm
        rw [lookupC_bump_ne _ _ _ _ hne]
        have hb : (t.name == n) = false := by simp [hn]
        simp only [hb, Bool.false_and, Bool.false_eq_true, if_false]
        push_cast
        omega
    · rw [if_neg hs]
      have hs' : httpSucceeds re rules t = false := by
        cases hx : httpSucceeds re rules t
        · rfl
        · exact absurd hx hs
      simp only [hs', Bool.and_false, Bool.false_eq_true, if_false]
      push_cast
      omega

theorem lookupC_gitFold :
    ∀ (L : List TaskEnv) (m : List (Str × Int)) (n : Str),
      lookupC (L.foldl
          (fun m t => if t.gitThrows then m else bump m t.name (-1)) m) n =
        lookupC m n - (L.countP (fun t => t.name == n && !t.gitThrows) : Int) := by
  intro L
  induction L with
  | nil => intro m n; simp
  | cons t rest ih =>
    intro m n
    rw [List.foldl_cons, ih, List.countP_cons]
    cases hg : t.gitThrows
    · rw [if_neg (by simp [hg])]
      by_cases hn : t.name = n
      · rw [hn, lookupC_bump_self]
        simp only [hn, beq_self_eq_true, hg, Bool.not_false, Bool.and_true, if_true]
        push_cast
        omega
      · have hne : n ≠ t.name := fun hh => hn hh.symm
        rw [lookupC_bump_ne _ _ _ _ hne]
        have hb : (t.name == n) = false := by simp [hn]
        simp only [hb, Bool.false_and, Bool.false_eq_true, if_false]
        push_cast
        omega
    · rw [if_pos (by simp [hg])]
      simp only [hg, Bool.not_true, Bool.and_false, Bool.false_eq_true, if_false]
      push_cast
      omega

theorem mem_keys_incFold : ∀ (L : List TaskEnv) (m : List (Str × Int)) (n : Str),
    (n ∈ (L.foldl (fun m t => bump m t.name 1) m).map Prod.fst ↔
      n ∈ m.map Prod.fst ∨ ∃ t ∈ L, t.name = n) := by
  intro L
  induction L with
  | nil => intro m n; simp
  | cons t rest ih =>
    intro m n
    rw [List.foldl_cons, ih, mem_keys_bump]
    simp only [List.mem_cons]
    constructor
    · rintro ((h | h) | ⟨t', ht', hn⟩)
      · exact Or.inl h
      · exact Or.inr ⟨t, Or.inl rfl, h.symm⟩
      · exact Or.inr ⟨t', Or.inr ht', hn⟩
    · rintro (h | ⟨t', (ht' | ht'), hn⟩)
      · exact Or.inl (Or.inl h)
      · exact Or.inl (Or.inr (ht' ▸ hn.symm))
      · exact Or.inr ⟨t', ht', hn⟩

theorem nodup_keys_incFold : ∀ (L : List TaskEnv) (m : List (Str × Int)),
    (m.map Prod.fst).Nodup →
      ((L.foldl (fun m t => bump m t.name 1) m).map Prod.fst).Nodup := by
  intro L
  induction L with
  | nil => intro m h; exact h
  | cons t rest ih =>
    intro m h
    exact ih _ (nodup_keys_bump _ _ _ h)

theorem mem_keys_decFold : ∀ (L : List TaskEnv) (m : List (Str × Int)) (n : Str),
    (n ∈ (L.foldl (fun m t => bump m t.name (-1)) m).map Prod.fst ↔
      n ∈ m.map Prod.fst ∨ ∃ t ∈ L, t.name = n) := by
  intro L
  induction L with
  | nil => intro m n; simp
  | cons t rest ih =>
    intro m n
    rw [List.foldl_cons, ih, mem_keys_bump]
    simp only [List.mem_cons]
    constructor
    · rintro ((h | h) | ⟨t', ht', hn⟩)
      · exact Or.inl h
      · exact Or.inr ⟨t, Or.inl rfl, h.symm⟩
      · exact Or.inr ⟨t', Or.inr ht', hn⟩
    · rintro (h | ⟨t', (ht' | ht'), hn⟩)
      · exact Or.inl (Or.inl h)
      · exact Or.inl (Or.inr (ht' ▸ hn.symm))
      · exact Or.inr ⟨t', ht', hn⟩

theorem nodup_keys_decFold : ∀ (L : List TaskEnv) (m : List (Str × Int)),
    (m.map Prod.fst).Nodup →
      ((L.foldl (fun m t => bump m t.name (-1)) m).map Prod.fst).Nodup := by
  intro L
  induction L with
  | nil => intro m h; exact h
  | cons t rest ih =>
    intro m h
    exact ih _ (nodup_keys_bump _ _ _ h)

theorem mem_keys_httpFold (re : RegexEngine) (rules : List MirrorRule) :
    ∀ (L : List TaskEnv) (m : List (Str × Int)) (n : Str),
      (n ∈ (L.foldl
          (fun m t => if httpSucceeds re rules t then bump m t.name (-1) else m)
          m).map Prod.fst ↔
        n ∈ m.map Prod.fst ∨ ∃ t ∈ L, t.name = n ∧ httpSucceeds re rules t = true) := by
  intro L
  induction L with
  | nil => intro m n; simp
  | cons t rest ih =>
    intro m n
    rw [List.foldl_cons]
    by_cases hs : httpSucceeds re rules t = true
    · rw [if_pos hs, ih, mem_keys_bump]
      simp only [List.mem_cons]
      constructor
      · rintro ((h | h) | ⟨t', ht', hn, hst'⟩)
        · exact Or.inl h
        · exact Or.inr ⟨t, Or.inl rfl, h.symm, hs⟩
        · exact Or.inr ⟨t', Or.inr ht', hn, hst'⟩
      · rintro (h | ⟨t', (ht' | ht'), hn, hst'⟩)
        · exact Or.inl (Or.inl h)
        · exact Or.inl (Or.inr (ht' ▸ hn.symm))
        · exact Or.inr ⟨t', ht', hn, hst'⟩
    · rw [if_neg hs, ih]
      constructor
      · rintro (h | ⟨t', ht', hn, hst'⟩)
        · exact Or.inl h
        · exact Or.inr ⟨t', List.mem_cons_of_mem _ ht', hn, hst'⟩
      · rintro (h | ⟨t', ht', hn, hst'⟩)
        · exact Or.inl h
        · rcases List.mem_cons.mp ht' with ht' | ht'
          · exact absurd (ht' ▸ hst') hs
          · exact Or.inr ⟨t', ht', hn, hst'⟩

theorem nodup_keys_httpFold (re : RegexEngine) (rules : List MirrorRule) :
    ∀ (L : List TaskEnv) (m : List (Str × Int)),
      (m.map Prod.fst).Nodup →
      ((L.foldl
        (fun m t => if httpSucceeds re rules t then bump m t.name (-1) else m)
        m).map Prod.fst).Nodup := by
  intro L
  induction L with
  | nil => intro m h; exact h
  | cons t rest ih =>
    intro m h
    rw [List.foldl_cons]
    by_cases hs : httpSucceeds re rules t = true
    · rw [if_pos hs]
      exact ih _ (nodup_keys_bump _ _ _ h)
    · rw [if_neg hs]
      exact ih _ h

theorem mem_keys_gitFold :
    ∀ (L : List TaskEnv) (m : List (Str × Int)) (n : Str),
      (n ∈ (L.foldl
          (fun m t => if t.gitThrows then m else bump m t.name (-1)) m).map Prod.fst ↔
        n ∈ m.map Prod.fst ∨ ∃ t ∈ L, t.name = n ∧ t.gitThrows = false) := by
  intro L
  induction L with
  | nil => intro m n; simp
  | cons t rest ih =>
    intro m n
    rw [List.foldl_cons]
    cases hg : t.gitThrows
    · rw [if_neg (by simp [hg]), ih, mem_keys_bump]
      simp only [List.mem_cons]
      constructor
      · rintro ((h | h) | ⟨t', ht', hn, hgt'⟩)
        · exact Or.inl h
        · exact Or.inr ⟨t, Or.inl rfl, h.symm, hg⟩
        · exact Or.inr ⟨t', Or.inr ht', hn, hgt'⟩
      · rintro (h | ⟨t', (ht' | ht'), hn, hgt'⟩)
        · exact Or.inl (Or.inl h)
        · exact Or.inl (Or.inr (ht' ▸ hn.symm))
        · exact Or.inr ⟨t', ht', hn, hgt'⟩
    · rw [if_pos (by simp [hg]), ih]
      constructor
      · rintro (h | ⟨t', ht', hn, hgt'⟩)
        · exact Or.inl h
        · exact Or.inr ⟨t', List.mem_cons_of_mem _ ht', hn, hgt'⟩
      · rintro (h | ⟨t', ht', hn, hgt'⟩)
        · exact Or.inl h
        · rcases List.mem_cons.mp ht' with ht' | ht'
          · rw [ht'] at hgt'
            rw [hg] at hgt'
            exact absurd hgt' (by simp)
          · exact Or.inr ⟨t', ht', hn, hgt'⟩

theorem nodup_keys_gitFold :
    ∀ (L : List TaskEnv) (m : List (Str × Int)),
      (m.map Prod.fst).Nodup →
      ((L.foldl
        (fun m t => if t.gitThrows then m else bump m t.name (-1)) m).map Prod.fst).Nodup := by
  intro L
  induction L with
  | nil => intro m h; exact h
  | cons t rest ih =>
    intro m h
    rw [List.foldl_cons]
    cases hg : t.gitThrows
    · rw [if_neg (by simp [hg])]
      exact ih _ (nodup_keys_bump _ _ _ h)
    · rw [if_pos (by simp [hg])]
      exact ih _ h

/-- The two partition branches that decrement the count at once. -/
def isSkipClass : TClass → Bool
  | TClass.skipNonUrl => true
  | TClass.skipVerified => true
  | TClass.queuedGit => false
  | TClass.queuedHttp => false

theorem partFold_httpL (dir : Str) : ∀ (ts : List TaskEnv) (st : FetchSt),
    (ts.foldl (partStep dir) st).httpL =
      st.httpL ++ ts.filter (fun t => classify dir t == TClass.queuedHttp) := by
  intro ts
  induction ts with
  | nil => intro st; simp
  | cons t rest ih =>
    intro st
    rw [List.foldl_cons, ih, List.filter_cons]
    rcases hcl : classify dir t <;>
      simp [partStep, hcl, beq_iff_eq]

theorem partFold_gitL (dir : Str) : ∀ (ts : List TaskEnv) (st : FetchSt),
    (ts.foldl (partStep dir) st).gitL =
      st.gitL ++ ts.filter (fun t => classify dir t == TClass.queuedGit) := by
  intro ts
  induction ts with
  | nil => intro st; simp
  | cons t rest ih =>
    intro st
    rw [List.foldl_cons, ih, List.filter_cons]
    rcases hcl : classify dir t <;>
      simp [partStep, hcl, beq_iff_eq]

theorem partFold_counts (dir : Str) : ∀ (ts : List TaskEnv) (st : FetchSt),
    (ts.foldl (partStep dir) st).counts =
      (ts.filter (fun t => isSkipClass (classify dir t))).foldl
        (fun m t => bump m t.name (-1)) st.counts := by
  intro ts
  induction ts with
  | nil => intro st; simp
  | cons t rest ih =>
    intro st
    rw [List.foldl_cons, ih, List.filter_cons]
    rcases hcl : classify dir t <;>
      simp [partStep, hcl, isSkipClass]

/-- Per-task accounting: one task's contributions to the four count phases
balance against its contribution to the failure count. -/
theorem count_elem (re : RegexEngine) (rules : List MirrorRule) (dir : Str)
    (t : TaskEnv) (n : Str) :
    (([t].countP (fun t => t.name == n) : Int)
        - ([t].countP (fun t => t.name == n && isSkipClass (classify dir t)) : Int)
        - ([t].countP (fun t =>
            (t.name == n && httpSucceeds re rules t) &&
              (classify dir t == TClass.queuedHttp)) : Int)
        - ([t].countP (fun t =>
            (t.name == n && !t.gitThrows) &&
              (classify dir t == TClass.queuedGit)) : Int))
      = ([t].countP (fun t => t.name == n && !taskSucceeds re rules dir t) : Int) := by
  rcases hcl : classify dir t <;>
    by_cases hn : (t.name == n) = true <;>
    cases hg : t.gitThrows <;>
    cases hs : httpSucceeds re rules t <;>
    simp [List.countP_cons, taskSucceeds, isSkipClass, hcl, hn, hg, hs, beq_iff_eq]

theorem count_partition (re : RegexEngine) (rules : List MirrorRule) (dir : Str) :
    ∀ (ts : List TaskEnv) (n : Str),
      (ts.countP (fun t => t.name == n) : Int)
        - (ts.countP (fun t => t.name == n && isSkipClass (classify dir t)) : Int)
        - (ts.countP (fun t =>
            (t.name == n && httpSucceeds re rules t) &&
              (classify dir t == TClass.queuedHttp)) : Int)
        - (ts.countP (fun t =>
            (t.name == n && !t.gitThrows) &&
              (classify dir t == TClass.queuedGit)) : Int)
      = (ts.countP (fun t => t.name == n && !taskSucceeds re rules dir t) : Int) := by
  intro ts
  induction ts with
  | nil => intro n; simp
  | cons t rest ih =>
    intro n
    have hih := ih n
    have helem := count_elem re rules dir t n
    have hsplit : t :: rest = [t] ++ rest := rfl
    rw [hsplit]
    simp only [List.countP_append]
    push_cast at hih helem ⊢
    omega

theorem lookupC_countsAfter_eq (re : RegexEngine) (rules : List MirrorRule)
    (dir : Str) (ts : List TaskEnv) (n : Str) :
    lookupC (countsAfter re rules dir ts) n =
      (ts.countP (fun t => t.name == n && !taskSucceeds re rules dir t) : Int) := by
  have hinit : lookupC (initCounts ts) n = (ts.countP (fun t => t.name == n) : Int) := by
    rw [initCounts, lookupC_incFold]
    simp [lookupC]
  have hgit : (partitionSt dir ts).gitL =
      ts.filter (fun t => classify dir t == TClass.queuedGit) := by
    rw [partitionSt, partFold_gitL]
    simp
  have hhttp : (partitionSt dir ts).httpL =
      ts.filter (fun t => classify dir t == TClass.queuedHttp) := by
    rw [partitionSt, partFold_httpL]
    simp
  have hcounts : (partitionSt dir ts).counts =
      (ts.filter (fun t => isSkipClass (classify dir t))).foldl
        (fun m t => bump m t.name (-1)) (initCounts ts) := by
    rw [partitionSt, partFold_counts]
  rw [countsAfter, hgit, hhttp, hcounts, lookupC_gitFold, lookupC_httpFold,
    lookupC_decFold, hinit]
  simp only [List.countP_reverse, List.countP_filter]
  have hpart := count_partition re rules dir ts n
  omega

theorem nodup_keys_countsAfter (re : RegexEngine) (rules : List MirrorRule)
    (dir : Str) (ts : List TaskEnv) :
    ((countsAfter re rules dir ts).map Prod.fst).Nodup := by
  rw [countsAfter]
  apply nodup_keys_gitFold
  apply nodup_keys_httpFold
  rw [partitionSt, partFold_counts]
  apply nodup_keys_decFold
  rw [initCounts]
  apply nodup_keys_incFold
  simp

theorem mem_keys_countsAfter (re : RegexEngine) (rules : List MirrorRule)
    (dir : Str) (ts : List TaskEnv) (n : Str) :
    (n ∈ (countsAfter re rules dir ts).map Prod.fst ↔ ∃ t ∈ ts, t.name = n) := by
  have hgit : (partitionSt dir ts).gitL =
      ts.filter (fun t => classify dir t == TClass.queuedGit) := by
    rw [partitionSt, partFold_gitL]
    simp
  have hhttp : (partitionSt dir ts).httpL =
      ts.filter (fun t => classify dir t == TClass.queuedHttp) := by
    rw [partitionSt, partFold_httpL]
    simp
  have hcounts : (partitionSt dir ts).counts =
      (ts.filter (fun t => isSkipClass (classify dir t))).foldl
        (fun m t => bump m t.name (-1)) (initCounts ts) := by
    rw [partitionSt, partFold_counts]
  rw [countsAfter, hgit, hhttp, hcounts, mem_keys_gitFold, mem_keys_httpFold,
    mem_keys_decFold, initCounts, mem_keys_incFold]
  simp only [List.map_nil, List.not_mem_nil, false_or, List.mem_reverse,
    List.mem_filter]
  constructor
  · rintro (((⟨t, ht, hn⟩ | ⟨t, ⟨ht, _⟩, hn⟩) | ⟨t, ⟨ht, _⟩, hn, _⟩) | ⟨t, ⟨ht, _⟩, hn, _⟩)
    · exact ⟨t, ht, hn⟩
    · exact ⟨t, ht, hn⟩
    · exact ⟨t, ht, hn⟩
    · exact ⟨t, ht, hn⟩
  · rintro ⟨t, ht, hn⟩
    exact Or.inl (Or.inl (Or.inl ⟨t, ht, hn⟩))

theorem mem_keys_of_mem_filterZero :
    ∀ (m : List (Str × Int)) (n : Str),
      n ∈ (m.filter (fun p => p.2 == 0)).map Prod.fst → n ∈ m.map Prod.fst := by
  intro m n h
  rcases List.mem_map.mp h with ⟨p, hp, hn⟩
  exact List.mem_map.mpr ⟨p, (List.mem_filter.mp hp).1, hn⟩

theorem mem_filterZero_keys :
    ∀ (m : List (Str × Int)) (n : Str), (m.map Prod.fst).Nodup →
      (n ∈ (m.filter (fun p => p.2 == 0)).map Prod.fst ↔
        n ∈ m.map Prod.fst ∧ lookupC m n = 0) := by
  intro m
  induction m with
  | nil => intro n _; simp [lookupC]
  | cons p rest ih =>
    intro n hnd
    obtain ⟨k, v⟩ := p
    simp only [List.map_cons, List.nodup_cons] at hnd
    by_cases hk : k = n
    · subst hk
      constructor
      · intro h
        rcases List.mem_map.mp h with ⟨q, hq, hqn⟩
        rcases List.mem_filter.mp hq with ⟨hq1, hq2⟩
        rcases List.mem_cons.mp hq1 with hq1 | hq1
        · subst hq1
          simp only [beq_iff_eq] at hq2
          refine ⟨by simp, ?_⟩
          simp [lookupC, hq2]
        · exact absurd (hqn ▸ List.mem_map.mpr ⟨q, hq1, rfl⟩) hnd.1
      · rintro ⟨_, hz⟩
        simp [lookupC] at hz
        have : (k, v) ∈ List.filter (fun p => p.2 == 0) ((k, v) :: rest) := by
          rw [List.mem_filter]
          exact ⟨List.mem_cons_self _ _, by simp [hz]⟩
        exact List.mem_map.mpr ⟨(k, v), this, rfl⟩
    · rw [List.filter_cons]
      have hlk : lookupC ((k, v) :: rest) n = lookupC rest n := by
        simp [lookupC, hk]
      by_cases hv : (v == 0) = true
      · simp only [hv, if_true, List.map_cons, List.mem_cons]
        rw [hlk]
        constructor
        · rintro (h | h)
          · exact absurd h.symm hk
          · have := (ih n hnd.2).mp h
            exact ⟨Or.inr this.1, this.2⟩
        · rintro ⟨hm | hm, hz⟩
          · exact absurd hm.symm hk
          · exact Or.inr ((ih n hnd.2).mpr ⟨hm, hz⟩)
      · simp only [hv, Bool.false_eq_true, if_false]
        rw [hlk]
        constructor
        · intro h
          have := (ih n hnd.2).mp h
          exact ⟨List.mem_cons_of_mem _ this.1, this.2⟩
        · rintro ⟨hm, hz⟩
          rcases List.mem_cons.mp hm with hm | hm
          · exact absurd hm.symm hk
          · exact (ih n hnd.2).mpr ⟨hm, hz⟩

/-- Membership in the ready set returned by `downloadAssets`: a package name
is returned iff it names at least one task and every task bearing it was
decremented. -/
theorem mem_downloadAssetsReady (re : RegexEngine) (rules : List MirrorRule)
    (dir : Str) (ts : List TaskEnv) (n : Str) :
    (n ∈ downloadAssetsReady re rules dir ts ↔
      (∃ t ∈ ts, t.name = n) ∧
        ∀ t ∈ ts, t.name = n → taskSucceeds re rules dir t = true) := by
  rw [downloadAssetsReady,
    mem_filterZero_keys _ _ (nodup_keys_countsAfter re rules dir ts),
    mem_keys_countsAfter, lookupC_countsAfter_eq]
  constructor
  · rintro ⟨hex, hz⟩
    refine ⟨hex, ?_⟩
    intro t ht hn
    have hz' : ts.countP (fun t => t.name == n && !taskSucceeds re rules dir t) = 0 := by
      exact_mod_cast hz
    have := List.countP_eq_zero.mp hz' t ht
    simp only [Bool.and_eq_true, beq_iff_eq, Bool.not_eq_true', not_and] at this
    cases hts : taskSucceeds re rules dir t
    · exact absurd hts (this hn)
    · rfl
  · rintro ⟨hex, hall⟩
    refine ⟨hex, ?_⟩
    have hz : ts.countP (fun t => t.name == n && !taskSucceeds re rules dir t) = 0 := by
      rw [List.countP_eq_zero]
      intro t ht
      simp only [Bool.and_eq_true, beq_iff_eq, Bool.not_eq_true', not_and]
      intro hn
      rw [hall t ht hn]
      simp
    exact_mod_cast congrArg (Nat.cast : Nat → Int) hz

/-! ## HTTP file download (src/src/main.ts, fetchFile, lines 346-424)

`fetchFile(url, path)` fetches, throws on a non-OK status or a null body,
opens `path` with `create/write/truncate`, streams the body chunks into the
file, and on ANY thrown error (network rejection, bad status, null body,
read or write failure) closes the file and removes `path`
(`await Deno.remove(path).catch(() => {})`, main.ts 403-412) before
re-throwing.  The filesystem is embedded as a map from paths to byte
contents; the per-call outcome is an oracle value. -/

/-- A filesystem: destination paths to byte contents. -/
def Fs : Type := Str → Option (List Nat)

/-- Removal of a path, `Deno.remove(path)`. -/
def fsRemove (fs : Fs) (p : Str) : Fs := fun q => if q = p then none else fs q

/-- Writing a complete file at `path`. -/
def fsSet (fs : Fs) (p : Str) (v : List Nat) : Fs := fun q => if q = p then some v else fs q

/-- The observable outcome of one `fetchFile` call. -/
inductive HttpOutcome where
  | netThrow
  | notOk
  | nullBody
  | readErr (written : List (List Nat))
  | writeErr (written : List (List Nat))
  | success (chunks : List (List Nat))

/-- Every outcome except a completed stream makes `fetchFile` throw. -/
def isFetchFailure : HttpOutcome → Bool
  | HttpOutcome.success _ => false
  | _ => true

/-- State transformer of one `fetchFile` call: on success the destination
holds exactly the streamed bytes (the file is opened with `truncate: true`,
so any previous content is overwritten); on any failure the `catch` block
removes the destination before the error is re-thrown (`false`). -/
def fetchFileModel (o : HttpOutcome) (fs : Fs) (path : Str) : Fs × Bool :=
  match o with
  | HttpOutcome.netThrow => (fsRemove fs path, false)
  | HttpOutcome.notOk => (fsRemove fs path, false)
  | HttpOutcome.nullBody => (fsRemove fs path, false)
  | HttpOutcome.readErr _ => (fsRemove fs path, false)
  | HttpOutcome.writeErr _ => (fsRemove fs path, false)
  | HttpOutcome.success chunks => (fsSet fs path chunks.flatten, true)

/-- C6. For every fetch that fails — including one that fails partway
through writing the destination file — the partially written file is removed
before the task is considered failed: after a failed fetch the destination
path does not exist, so a later run's existence check cannot see a truncated
file. -/
theorem claim_c6_failed_fetch_removes_partial_file
    (o : HttpOutcome) (fs : Fs) (path : Str) (h : isFetchFailure o = true) :
    (fetchFileModel o fs path).1 path = none ∧
      (fetchFileModel o fs path).2 = false := by
  cases o with
  | success chunks => exact absurd h (by simp [isFetchFailure])
  | netThrow => exact ⟨by simp [fetchFileModel, fsRemove], rfl⟩
  | notOk => exact ⟨by simp [fetchFileModel, fsRemove], rfl⟩
  | nullBody => exact ⟨by simp [fetchFileModel, fsRemove], rfl⟩
  | readErr w => exact ⟨by simp [fetchFileModel, fsRemove], rfl⟩
  | writeErr w => exact ⟨by simp [fetchFileModel, fsRemove], rfl⟩

/-- Witness for C6: a fetch interrupted after writing one chunk over an
existing file leaves no file behind. -/
theorem claim_c6_witness :
    isFetchFailure (HttpOutcome.readErr [[104, 105]]) = true ∧
    (fetchFileModel (HttpOutcome.readErr [[104, 105]])
        (fsSet (fun _ => none) (sOf "/b/pkg/a.tar.gz") [7, 7])
        (sOf "/b/pkg/a.tar.gz")).1 (sOf "/b/pkg/a.tar.gz") = none :=
  ⟨rfl,
   (claim_c6_failed_fetch_removes_partial_file (HttpOutcome.readErr [[104, 105]])
      (fsSet (fun _ => none) (sOf "/b/pkg/a.tar.gz") [7, 7])
      (sOf "/b/pkg/a.tar.gz") rfl).1⟩

/-! ### Claims about downloadAssets -/

/-- The git environment of the C1 failing input: no pre-existing directory,
and a clone that exits with a failure status. -/
def gitFailEnv : GitEnv := GitEnv.mk false false false

/-- C1 failing input: one git-transport task whose `git clone` exits
unsuccessfully while the awaited `fetchGit` call itself does not throw. -/
def gitFailTask : TaskEnv :=
  TaskEnv.mk (sOf "pkg") (sOf "sha256") []
    (UrlX.mk (sOf "y") (sOf "https://github.com/x/y") UrlType.git)
    false none false false false gitFailEnv

/-- C1 (code bug). The claim says the ready set contains a package name
iff every task bearing it succeeded, a git fetch counting as a success only
when the fetch succeeds.  In the code, `fetchGit` returns `true` even when
`git clone` exits unsuccessfully — it only prints the clone's stderr
(main.ts 485-491) — and `downloadAssets` additionally discards the returned
boolean (main.ts 903-908), so a package whose only git task's clone failed is
still reported ready. -/
theorem claim_c1_failed_git_clone_still_ready :
    gitFailTask.gitEnv.cloneExitOk = false ∧
    fetchGitResult gitFailTask.gitEnv = true ∧
    downloadAssetsReady reNone [] (sOf "/b") [gitFailTask] = [sOf "pkg"] := by
  decide

theorem pathOf_ne_nil (dir : Str) (t : TaskEnv) : pathOf dir t ≠ [] := by
  intro h
  have h2 := congrArg List.length h
  simp only [pathOf, List.length_append, List.length_nil] at h2
  have hone : (sOf "/").length = 1 := by decide
  omega

/-- C3. For every HTTP-transport task whose destination file exists and
whose declared checksum is verifiable (non-empty and not `SKIP`): when the
local file's digest under the declared algorithm equals the declared value
the task is classified skip-verified — `fetchFile` is never invoked for it —
and it counts as a success; when the strict check fails the task is queued
and fetched (a non-empty invocation list), and a successful re-fetch
overwrites the destination with the streamed bytes. -/
theorem claim_c3_checksum_skip_and_refetch (re : RegexEngine)
    (rules : List MirrorRule) (dir : Str) (t : TaskEnv)
    (htype : t.parsed.type = UrlType.http) (hurl : isHttpUrl t.parsed.url = true)
    (hex : t.fileExists = true) :
    (∀ stdout, t.digestOut = some (true, stdout) →
      (splitOnChar ' ' stdout).headD [] = t.sumValue →
      t.sumValue ≠ sOf "SKIP" → t.sumValue ≠ [] →
      classify dir t = TClass.skipVerified ∧
        taskFetchInvocations re rules dir t = [] ∧
        taskSucceeds re rules dir t = true) ∧
    (sumCheckStrict (pathOf dir t) t.sumType t.sumValue t.digestOut = false →
      classify dir t = TClass.queuedHttp ∧
        taskFetchInvocations re rules dir t = httpAttempts re rules t ∧
        taskFetchInvocations re rules dir t ≠ []) ∧
    (∀ (fs : Fs) (chunks : List (List Nat)),
      (fetchFileModel (HttpOutcome.success chunks) fs (pathOf dir t)).1
        (pathOf dir t) = some chunks.flatten) := by
  refine ⟨?_, ?_, ?_⟩
  · intro stdout hdig hmatch hskip hemp
    have hsum : sumCheckStrict (pathOf dir t) t.sumType t.sumValue t.digestOut = true := by
      rw [sumCheckStrict.eq_def, if_neg hskip, if_neg hemp,
        if_neg (pathOf_ne_nil dir t), hdig]
      simp
      simpa using hmatch
    have hcl : classify dir t = TClass.skipVerified := by
      rw [classify, if_neg (not_not_intro hurl), if_neg (by simp [htype]),
        if_pos ⟨hex, hsum⟩]
    exact ⟨hcl, by simp [taskFetchInvocations, hcl], by simp [taskSucceeds, hcl]⟩
  · intro hsum
    have hcl : classify dir t = TClass.queuedHttp := by
      rw [classify, if_neg (not_not_intro hurl), if_neg (by simp [htype]),
        if_neg (by simp [hsum])]
    refine ⟨hcl, by simp [taskFetchInvocations, hcl], ?_⟩
    have hinv : taskFetchInvocations re rules dir t = httpAttempts re rules t := by
      simp [taskFetchInvocations, hcl]
    rw [hinv, httpAttempts]
    split
    · simp
    · split <;> simp
  · intro fs chunks
    simp [fetchFileModel, fsSet]

/-- C3 witness input: an HTTP task whose destination exists and whose local
digest (first field of the digest tool's output) equals the declared sum. -/
def verifiedTask : TaskEnv :=
  TaskEnv.mk (sOf "pkg") (sOf "sha256") (sOf "abc123")
    (UrlX.mk (sOf "a.tar.gz") (sOf "https://github.com/x/a.tar.gz") UrlType.http)
    true (some (true, sOf "abc123 /b/pkg/a.tar.gz")) true true false gitFailEnv

/-- Witness for C3 at `verifiedTask`. -/
theorem claim_c3_witness :
    classify (sOf "/b") verifiedTask = TClass.skipVerified ∧
    taskFetchInvocations reNone [] (sOf "/b") verifiedTask = [] ∧
    taskSucceeds reNone [] (sOf "/b") verifiedTask = true :=
  (claim_c3_checksum_skip_and_refetch reNone [] (sOf "/b") verifiedTask
      rfl (by decide) rfl).1 (sOf "abc123 /b/pkg/a.tar.gz")
    rfl (by decide) (by decide) (by decide)

/-- C4. For every HTTP task: when the mirror rewriting changed the URL
and the fetch through the rewritten URL fails, `newDl` performs exactly one
retry against the original pre-rewrite URL — the invocation list is
`[rewritten, original]` — and the task's success then equals the original
fetch's outcome; when no rewrite applied, the single fetch is the only
invocation and its failure is terminal.  In both cases the failure is
confined to the task: the readiness of every other package name is unchanged
by the task's presence. -/
theorem claim_c4_mirror_retry_and_isolation (re : RegexEngine)
    (rules : List MirrorRule) (dir : Str) (t : TaskEnv)
    (ts₁ ts₂ : List TaskEnv) (n : Str) :
    (urlMapping re rules t.parsed.url UrlType.http ≠ t.parsed.url →
      t.mirrorFetchOk = false →
      httpAttempts re rules t =
          [urlMapping re rules t.parsed.url UrlType.http, t.parsed.url] ∧
        httpSucceeds re rules t = t.originFetchOk) ∧
    (urlMapping re rules t.parsed.url UrlType.http = t.parsed.url →
      httpAttempts re rules t = [urlMapping re rules t.parsed.url UrlType.http] ∧
        (t.mirrorFetchOk = false → httpSucceeds re rules t = false)) ∧
    (n ≠ t.name →
      (n ∈ downloadAssetsReady re rules dir (ts₁ ++ t :: ts₂) ↔
        n ∈ downloadAssetsReady re rules dir (ts₁ ++ ts₂))) := by
  refine ⟨?_, ?_, ?_⟩
  · intro hne hmf
    constructor
    · rw [httpAttempts, if_neg (by simp [hmf]), if_pos hne]
    · rw [httpSucceeds, if_neg (by simp [hmf]), if_pos hne]
  · intro heq
    constructor
    · by_cases hm : t.mirrorFetchOk = true
      · rw [httpAttempts, if_pos hm]
      · rw [httpAttempts, if_neg hm, if_neg (not_not_intro heq)]
    · intro hmf
      rw [httpSucceeds, if_neg (by simp [hmf]), if_neg (not_not_intro heq)]
  · intro hn
    rw [mem_downloadAssetsReady, mem_downloadAssetsReady]
    constructor
    · rintro ⟨⟨t', ht', hn'⟩, hall⟩
      refine ⟨⟨t', ?_, hn'⟩, ?_⟩
      · rcases List.mem_append.mp ht' with h | h
        · exact List.mem_append.mpr (Or.inl h)
        · rcases List.mem_cons.mp h with h | h
          · exact absurd (h ▸ hn') (fun hh => hn hh.symm)
          · exact List.mem_append.mpr (Or.inr h)
      · intro t'' ht'' hn''
        apply hall t''
        · rcases List.mem_append.mp ht'' with h | h
          · exact List.mem_append.mpr (Or.inl h)
          · exact List.mem_append.mpr (Or.inr (List.mem_cons_of_mem _ h))
        · exact hn''
    · rintro ⟨⟨t', ht', hn'⟩, hall⟩
      refine ⟨⟨t', ?_, hn'⟩, ?_⟩
      · rcases List.mem_append.mp ht' with h | h
        · exact List.mem_append.mpr (Or.inl h)
        · exact List.mem_append.mpr (Or.inr (List.mem_cons_of_mem _ h))
      · intro t'' ht'' hn''
        rcases List.mem_append.mp ht'' with h | h
        · exact hall t'' (List.mem_append.mpr (Or.inl h)) hn''
        · rcases List.mem_cons.mp h with h | h
          · exact absurd (h ▸ hn'') (fun hh => hn hh.symm)
          · exact hall t'' (List.mem_append.mpr (Or.inr h)) hn''

/-- The default GitHub HTTP mirror rule of `urlMappingList`. -/
def githubHttpRule : MirrorRule :=
  MirrorRule.mk (sOf "https://github.com") UrlType.http false
    (sOf "https://hub.gitmirror.com/https://github.com")

/-- C4 witness input: a rewritten HTTP task whose mirror fetch fails and
whose original fetch succeeds. -/
def mirrorFailTask : TaskEnv :=
  TaskEnv.mk (sOf "pkg") (sOf "sha256") []
    (UrlX.mk (sOf "a.tar.gz") (sOf "https://github.com/x/a.tar.gz") UrlType.http)
    false none false true false gitFailEnv

/-- Witness for C4 at `mirrorFailTask` under the default GitHub rule. -/
theorem claim_c4_witness :
    httpAttempts reNone [githubHttpRule] mirrorFailTask =
      [urlMapping reNone [githubHttpRule] mirrorFailTask.parsed.url UrlType.http,
        mirrorFailTask.parsed.url] ∧
    httpSucceeds reNone [githubHttpRule] mirrorFailTask =
      mirrorFailTask.originFetchOk ∧
    (sOf "other" ∈
        downloadAssetsReady reNone [githubHttpRule] (sOf "/b") [mirrorFailTask] ↔
      sOf "other" ∈ downloadAssetsReady reNone [githubHttpRule] (sOf "/b") []) :=
  ⟨((claim_c4_mirror_retry_and_isolation reNone [githubHttpRule] (sOf "/b")
        mirrorFailTask [] [] (sOf "other")).1 (by decide) rfl).1,
   ((claim_c4_mirror_retry_and_isolation reNone [githubHttpRule] (sOf "/b")
        mirrorFailTask [] [] (sOf "other")).1 (by decide) rfl).2,
   (claim_c4_mirror_retry_and_isolation reNone [githubHttpRule] (sOf "/b")
        mirrorFailTask [] [] (sOf "other")).2.2 (by decide)⟩

/-! ## Dependency aggregator (src/src/main.ts, update, lines 1153-1169)

For each selected package the aggregation loop destructures only
`MakeDepends` and `Depends` from the remote record — `OptDepends` and
`CheckDepends` are never consulted — and calls `addDep(local.name, dep)` for
every entry of both lists:

```ts
const depMap = new Map<string, Set<string>>();
function addDep(name, dep) {
  const l = depMap.get(dep) ?? new Set();
  l.add(name);
  depMap.set(dep, l);
}
for (const { local: { name }, remote: { MakeDepends, Depends } } of _nl) {
  for (const i of MakeDepends ?? []) addDep(name, i);
  for (const i of Depends ?? []) addDep(name, i);
}
```
-/

/-- One selected package as the aggregation loop sees it. -/
structure SelPkg where
  name : Str
  makeDepends : Option (List Str)
  depends : Option (List Str)
  optDepends : Option (List Str)
  checkDepends : Option (List Str)
deriving DecidableEq, Repr

/-- JS `Set.prototype.add`: insertion-ordered, deduplicating. -/
def setAdd (s : List Str) (x : Str) : List Str :=
  if x ∈ s then s else s ++ [x]

/-- The `Map<string, Set<string>>` in insertion order. -/
abbrev DepMap := List (Str × List Str)

/-- The map read `depMap.get(dep)`. -/
def lookupS : DepMap → Str → Option (List Str)
  | [], _ => none
  | (d, s) :: rest, dep => if d = dep then some s else lookupS rest dep

/-- The helper `addDep(name, dep)`: add `name` to the requirer set stored under `dep`,
creating the entry at the end on first sight. -/
def addDep : DepMap → Str → Str → DepMap
  | [], name, dep => [(dep, setAdd [] name)]
  | (d, s) :: rest, name, dep =>
    if d = dep then (d, setAdd s name) :: rest
    else (d, s) :: addDep rest name dep

/-- The two inner loops for one selected package. -/
def addPkgDeps (m : DepMap) (p : SelPkg) : DepMap :=
  (p.depends.getD []).foldl (fun m i => addDep m p.name i)
    ((p.makeDepends.getD []).foldl (fun m i => addDep m p.name i) m)

/-- The whole aggregation loop. -/
def buildDepMap (sel : List SelPkg) : DepMap :=
  sel.foldl addPkgDeps []

theorem mem_setAdd (s : List Str) (x y : Str) :
    (y ∈ setAdd s x ↔ y ∈ s ∨ y = x) := by
  rw [setAdd]
  by_cases h : x ∈ s
  · rw [if_pos h]
    constructor
    · exact Or.inl
    · rintro (hy | hy)
      · exact hy
      · exact hy ▸ h
  · rw [if_neg h]
    simp

theorem mem_keys_addDep : ∀ (m : DepMap) (name dep a : Str),
    (a ∈ (addDep m name dep).map Prod.fst ↔ a ∈ m.map Prod.fst ∨ a = dep) := by
  intro m
  induction m with
  | nil => intro name dep a; simp [addDep]
  | cons p rest ih =>
    intro name dep a
    obtain ⟨d, s⟩ := p
    by_cases hd : d = dep
    · simp only [addDep, if_pos hd, List.map_cons, List.mem_cons]
      subst hd
      tauto
    · simp only [addDep, if_neg hd, List.map_cons, List.mem_cons, ih]
      tauto

theorem nodup_keys_addDep : ∀ (m : DepMap) (name dep : Str),
    (m.map Prod.fst).Nodup → ((addDep m name dep).map Prod.fst).Nodup := by
  intro m
  induction m with
  | nil => intro name dep _; simp [addDep]
  | cons p rest ih =>
    intro name dep h
    obtain ⟨d, s⟩ := p
    simp only [List.map_cons, List.nodup_cons] at h
    by_cases hd : d = dep
    · simp only [addDep, if_pos hd, List.map_cons, List.nodup_cons]
      exact h
    · simp only [addDep, if_neg hd, List.map_cons, List.nodup_cons, mem_keys_addDep]
      refine ⟨?_, ih name dep h.2⟩
      rintro (hmem | hmem)
      · exact h.1 hmem
      · exact hd hmem

theorem lookupS_addDep_self : ∀ (m : DepMap) (name dep : Str),
    lookupS (addDep m name dep) dep =
      some (setAdd ((lookupS m dep).getD []) name) := by
  intro m
  induction m with
  | nil => intro name dep; simp [addDep, lookupS]
  | cons p rest ih =>
    intro name dep
    obtain ⟨d, s⟩ := p
    by_cases hd : d = dep
    · simp only [addDep, if_pos hd, lookupS, if_pos hd]
      rfl
    · simp only [addDep, if_neg hd, lookupS, if_neg hd]
      exact ih name dep

theorem lookupS_addDep_ne : ∀ (m : DepMap) (name dep d2 : Str), d2 ≠ dep →
    lookupS (addDep m name dep) d2 = lookupS m d2 := by
  intro m
  induction m with
  | nil =>
    intro name dep d2 h
    have h' : ¬(dep = d2) := fun hh => h hh.symm
    simp only [addDep, lookupS, if_neg h']
  | cons p rest ih =>
    intro name dep d2 h
    obtain ⟨d, s⟩ := p
    by_cases hd : d = dep
    · have h' : ¬(d = d2) := fun hh => h (hd ▸ hh.symm)
      simp only [addDep, if_pos hd, lookupS, if_neg h']
    · simp only [addDep, if_neg hd, lookupS]
      by_cases h2 : d = d2
      · simp only [if_pos h2]
      · simp only [if_neg h2]
        exact ih name dep d2 h

theorem mem_getD_depFold (name d n : Str) :
    ∀ (l : List Str) (m : DepMap),
      (n ∈ (lookupS (l.foldl (fun m i => addDep m name i) m) d).getD [] ↔
        n ∈ (lookupS m d).getD [] ∨ (n = name ∧ d ∈ l)) := by
  intro l
  induction l with
  | nil => intro m; simp
  | cons i rest ih =>
    intro m
    rw [List.foldl_cons, ih]
    by_cases hd : d = i
    · rw [hd, lookupS_addDep_self]
      simp only [Option.getD_some, mem_setAdd, List.mem_cons, eq_self_iff_true,
        true_or, and_true]
      tauto
    · rw [lookupS_addDep_ne _ _ _ _ hd]
      constructor
      · rintro (h | ⟨h1, h2⟩)
        · exact Or.inl h
        · exact Or.inr ⟨h1, List.mem_cons_of_mem _ h2⟩
      · rintro (h | ⟨h1, h2⟩)
        · exact Or.inl h
        · rcases List.mem_cons.mp h2 with h2 | h2
          · exact absurd h2 hd
          · exact Or.inr ⟨h1, h2⟩

theorem mem_keys_depFold (name d : Str) :
    ∀ (l : List Str) (m : DepMap),
      (d ∈ (l.foldl (fun m i => addDep m name i) m).map Prod.fst ↔
        d ∈ m.map Prod.fst ∨ d ∈ l) := by
  intro l
  induction l with
  | nil => intro m; simp
  | cons i rest ih =>
    intro m
    rw [List.foldl_cons, ih, mem_keys_addDep]
    simp only [List.mem_cons]
    tauto

theorem nodup_keys_depFold (name : Str) :
    ∀ (l : List Str) (m : DepMap), (m.map Prod.fst).Nodup →
      ((l.foldl (fun m i => addDep m name i) m).map Prod.fst).Nodup := by
  intro l
  induction l with
  | nil => intro m h; exact h
  | cons i rest ih =>
    intro m h
    exact ih _ (nodup_keys_addDep _ _ _ h)

theorem mem_getD_buildFold (d n : Str) :
    ∀ (sel : List SelPkg) (m : DepMap),
      (n ∈ (lookupS (sel.foldl addPkgDeps m) d).getD [] ↔
        n ∈ (lookupS m d).getD [] ∨
          ∃ p ∈ sel, p.name = n ∧
            (d ∈ p.makeDepends.getD [] ∨ d ∈ p.depends.getD [])) := by
  intro sel
  induction sel with
  | nil => intro m; simp
  | cons p rest ih =>
    intro m
    rw [List.foldl_cons, ih, addPkgDeps, mem_getD_depFold, mem_getD_depFold]
    simp only [List.mem_cons]
    constructor
    · rintro (((h | ⟨h1, h2⟩) | ⟨h1, h2⟩) | ⟨q, hq, hqn, hqd⟩)
      · exact Or.inl h
      · exact Or.inr ⟨p, Or.inl rfl, h1.symm, Or.inl h2⟩
      · exact Or.inr ⟨p, Or.inl rfl, h1.symm, Or.inr h2⟩
      · exact Or.inr ⟨q, Or.inr hq, hqn, hqd⟩
    · rintro (h | ⟨q, (hq | hq), hqn, hqd⟩)
      · exact Or.inl (Or.inl (Or.inl h))
      · subst hq
        rcases hqd with h2 | h2
        · exact Or.inl (Or.inl (Or.inr ⟨hqn.symm, h2⟩))
        · exact Or.inl (Or.inr ⟨hqn.symm, h2⟩)
      · exact Or.inr ⟨q, hq, hqn, hqd⟩
theorem mem_keys_buildFold (d : Str) :
    ∀ (sel : List SelPkg) (m : DepMap),
      (d ∈ (sel.foldl addPkgDeps m).map Prod.fst ↔
        d ∈ m.map Prod.fst ∨
          ∃ p ∈ sel, d ∈ p.makeDepends.getD [] ∨ d ∈ p.depends.getD []) := by
  intro sel
  induction sel with
  | nil => intro m; simp
  | cons p rest ih =>
    intro m
    rw [List.foldl_cons, ih, addPkgDeps, mem_keys_depFold, mem_keys_depFold]
    simp only [List.mem_cons]
    constructor
    · rintro (((h | h) | h) | ⟨q, hq, hqd⟩)
      · exact Or.inl h
      · exact Or.inr ⟨p, Or.inl rfl, Or.inl h⟩
      · exact Or.inr ⟨p, Or.inl rfl, Or.inr h⟩
      · exact Or.inr ⟨q, Or.inr hq, hqd⟩
    · rintro (h | ⟨q, (hq | hq), hqd⟩)
      · exact Or.inl (Or.inl (Or.inl h))
      · subst hq
        rcases hqd with h2 | h2
        · exact Or.inl (Or.inl (Or.inr h2))
        · exact Or.inl (Or.inr h2)
      · exact Or.inr ⟨q, hq, hqd⟩

theorem nodup_keys_buildFold :
    ∀ (sel : List SelPkg) (m : DepMap), (m.map Prod.fst).Nodup →
      ((sel.foldl addPkgDeps m).map Prod.fst).Nodup := by
  intro sel
  induction sel with
  | nil => intro m h; exact h
  | cons p rest ih =>
    intro m h
    rw [List.foldl_cons]
    exact ih _ (nodup_keys_depFold _ _ _ (nodup_keys_depFold _ _ _ h))

/-- C9. For every set of selected packages, the aggregated reverse map's
keys are exactly the union of the packages' build-time (`MakeDepends`) and
run-time (`Depends`) dependency lists; the optional and check dependency
lists are excluded (replacing them by `none` leaves the map unchanged); the
keys are free of duplicates, so a dependency required by several packages
appears as one entry; and that entry's value is exactly the set of all
requiring package names. -/
theorem claim_c9_reverse_dependency_map (sel : List SelPkg) (d n : Str) :
    (d ∈ (buildDepMap sel).map Prod.fst ↔
      ∃ p ∈ sel, d ∈ p.makeDepends.getD [] ∨ d ∈ p.depends.getD []) ∧
    ((buildDepMap sel).map Prod.fst).Nodup ∧
    (n ∈ (lookupS (buildDepMap sel) d).getD [] ↔
      ∃ p ∈ sel, p.name = n ∧
        (d ∈ p.makeDepends.getD [] ∨ d ∈ p.depends.getD [])) ∧
    buildDepMap sel =
      buildDepMap (sel.map (fun p =>
        SelPkg.mk p.name p.makeDepends p.depends none none)) := by
  refine ⟨?_, ?_, ?_, ?_⟩
  · rw [buildDepMap, mem_keys_buildFold]
    simp
  · rw [buildDepMap]
    exact nodup_keys_buildFold sel [] (by simp)
  · rw [buildDepMap, mem_getD_buildFold]
    simp [lookupS]
  · rw [buildDepMap, buildDepMap, List.foldl_map]
    have hfun : (fun (x : DepMap) (p : SelPkg) =>
        addPkgDeps x (SelPkg.mk p.name p.makeDepends p.depends none none)) =
          addPkgDeps := by
      funext x p
      rfl
    rw [hfun]
